import Mathlib

/-!
Verification of the LFU (Least Frequently Used) cache of
`src/LeastFrequentlyUsed.py`.

The Python class `LFUCache` keeps three coupled structures:
* `data : dict key -> Node` — the key index (`Node` carries key, value, freq);
* `freq_map : defaultdict(OrderedDict)` — frequency -> ordered group of the
  nodes currently at that frequency, oldest (least recently touched) first;
* `min_freq : int` — the tracked minimum frequency.

Python `Node` objects are shared by reference between `data` and `freq_map`
(mutating `node.value` / `node.freq` is visible through both), and the nodes
stored inside a frequency group are never read (only the popped key is used),
so the faithful functional embedding stores the node contents once, in `data`,
and represents each frequency group by its list of keys in insertion order.

Python `dict` / `OrderedDict` are embedded as association lists:
assignment `d[k] = v` replaces in place (keeping the position) when the key is
present and appends otherwise, exactly like `dict` insertion order; `del d[k]`
raises `KeyError` when the key is absent, which the embedding models by
returning `none`; `popitem(last=False)` pops the first (oldest) entry and
raises on an empty dict.  Operations that can raise return `Option`.
-/

namespace LFU

/-- Python `d[k]` lookup on an association list (first binding wins). -/
def alookup {α β : Type} [DecidableEq α] (k : α) : List (α × β) → Option β
  | [] => none
  | (a, b) :: rest => if k = a then some b else alookup k rest

/-- Python `d[k] = v`: replace the first binding of `k` in place, else append
(insertion-ordered `dict` / `OrderedDict` assignment). -/
def aset {α β : Type} [DecidableEq α] (k : α) (v : β) : List (α × β) → List (α × β)
  | [] => [(k, v)]
  | (a, b) :: rest => if k = a then (k, v) :: rest else (a, b) :: aset k v rest

/-- Python `del d[k]` when the key is known to be present: drop the first
binding of `k`, leaving the list unchanged when `k` is absent. -/
def adel {α β : Type} [DecidableEq α] (k : α) : List (α × β) → List (α × β)
  | [] => []
  | (a, b) :: rest => if k = a then rest else (a, b) :: adel k rest

/-- Python `del d[k]`: drop the first binding of `k`, raising `KeyError`
(`none`) when `k` is absent. -/
def adelF {α β : Type} [DecidableEq α] (k : α) : List (α × β) → Option (List (α × β))
  | [] => none
  | (a, b) :: rest =>
    if k = a then some rest else (adelF k rest).map (fun l => (a, b) :: l)

/-- Python `del od[k]` on a frequency group (represented by its key list):
drop the first occurrence of `k`, raising (`none`) when `k` is absent. -/
def ldel (k : Int) : List Int → Option (List Int)
  | [] => none
  | a :: rest =>
    if k = a then some rest else (ldel k rest).map (fun l => a :: l)

/-- The `Node` class: one cached entry.  `freq` starts at 1 on insertion. -/
structure Node where
  key : Int
  value : Int
  freq : Nat
deriving DecidableEq

/-- The `LFUCache` state.  `data` is the key index; `freq_map` maps a
frequency to the keys of its group, oldest first; see the file comment for
why groups store keys rather than node copies. -/
structure LFUCache where
  capacity : Int
  data : List (Int × Node)
  freq_map : List (Nat × List Int)
  min_freq : Nat
deriving DecidableEq

/-- Constructor `LFUCache.__init__(capacity)`: stores the capacity unchecked, with empty
`data`, empty `freq_map` and `min_freq = 0`. -/
def init (capacity : Int) : LFUCache :=
  { capacity := capacity, data := [], freq_map := [], min_freq := 0 }

/-- Helper `LFUCache._update_freq(node)`: remove `node.key` from its current
frequency group (pruning the group and bumping `min_freq` when it empties at
the minimum), increment `node.freq`, and append the key to the group of the
new frequency.  The shared `node` lives in `data`, so its `freq` increment is
written back there.  Returns the updated node together with the new state, or
`none` when the `del` raises (`node.key` missing from its group). -/
def update_freq (c : LFUCache) (node : Node) : Option (Node × LFUCache) :=
  match ldel node.key ((alookup node.freq c.freq_map).getD []) with
  | none => none
  | some g' =>
    let fm1 := aset node.freq g' c.freq_map
    let fm2 := if g' = [] then adel node.freq fm1 else fm1
    let mf2 := if g' = [] ∧ node.freq = c.min_freq then c.min_freq + 1 else c.min_freq
    let node' : Node := { node with freq := node.freq + 1 }
    let g2 := (alookup node'.freq fm2).getD []
    let g2' := if node'.key ∈ g2 then g2 else g2 ++ [node'.key]
    some (node', { c with
      data := aset node.key node' c.data
      freq_map := aset node'.freq g2' fm2
      min_freq := mf2 })

/-- Method `LFUCache.get(key)`: `none` of the outer `Option` is an uncaught Python
exception; the inner `Option Int` is the returned value, `none` being Python
`None` (key absent).  A hit promotes the entry via `_update_freq`. -/
def get (c : LFUCache) (key : Int) : Option (Option Int × LFUCache) :=
  match alookup key c.data with
  | none => some (none, c)
  | some node =>
    match update_freq c node with
    | none => none
    | some (node', c') => some (some node'.value, c')

/-- Method `LFUCache.set(key, value)`: no-op when `capacity == 0`; on an existing
key, replace the value and promote; on an absent key, evict the oldest member
of the `min_freq` group first when `len(data) >= capacity`, then insert a
fresh node with `freq = 1` and reset `min_freq` to 1.  `none` is an uncaught
Python exception (`popitem` / `del` on a missing key). -/
def set (c : LFUCache) (key : Int) (value : Int) : Option LFUCache :=
  if c.capacity = 0 then some c
  else
    match alookup key c.data with
    | some node =>
      let node1 : Node := { node with value := value }
      let c1 : LFUCache := { c with data := aset key node1 c.data }
      match update_freq c1 node1 with
      | none => none
      | some (_, c2) => some c2
    | none =>
      let afterEvict : Option LFUCache :=
        if c.capacity ≤ (c.data.length : Int) then
          match (alookup c.min_freq c.freq_map).getD [] with
          | [] => none
          | lfu_key :: grest =>
            match adelF lfu_key c.data with
            | none => none
            | some data1 =>
              let fm1 := aset c.min_freq grest c.freq_map
              let fm2 := if grest = [] then adel c.min_freq fm1 else fm1
              some { c with data := data1, freq_map := fm2 }
        else some c
      match afterEvict with
      | none => none
      | some c1 =>
        let node : Node := { key := key, value := value, freq := 1 }
        let g1 := (alookup 1 c1.freq_map).getD []
        let g1' := if key ∈ g1 then g1 else g1 ++ [key]
        some { c1 with
          data := aset key node c1.data
          freq_map := aset 1 g1' c1.freq_map
          min_freq := 1 }

/-- One logical operation against the store. -/
inductive Op where
  | get (key : Int)
  | set (key : Int) (value : Int)
deriving DecidableEq

/-- The state transition of one operation (`none` = uncaught exception). -/
def step (c : LFUCache) : Op → Option LFUCache
  | Op.get k => (get c k).map Prod.snd
  | Op.set k v => set c k v

/-- Run a sequence of operations from a state. -/
def run (c : LFUCache) : List Op → Option LFUCache
  | [] => some c
  | op :: ops => (step c op).bind (fun c' => run c' ops)

/-- Run a sequence of operations, also collecting each `get`'s returned
value (Python `None` encoded as `none`). -/
def runOuts (c : LFUCache) : List Op → Option (LFUCache × List (Option Int))
  | [] => some (c, [])
  | Op.get k :: ops =>
    (get c k).bind (fun r =>
      (runOuts r.2 ops).map (fun p => (p.1, r.1 :: p.2)))
  | Op.set k v :: ops => (set c k v).bind (fun c' => runOuts c' ops)

/-- The states reachable from a freshly constructed store of capacity `cap`
by sequences of non-raising operations. -/
inductive Reachable (cap : Int) : LFUCache → Prop
  | init : Reachable cap (init cap)
  | step {c c' : LFUCache} (op : Op) :
      Reachable cap c → step c op = some c' → Reachable cap c'

/-- The operation sequence of the module-level test of `LFUCache.py`
(capacity 2), followed by the three final `get`s. -/
def scenarioOps : List Op :=
  [Op.set 1 1, Op.set 2 2, Op.get 1, Op.set 3 3, Op.get 2, Op.get 3,
   Op.set 4 4, Op.get 1, Op.get 3, Op.get 4]

/-- The structural invariant tying the three coupled structures of the store
together, for stores of non-negative capacity. -/
structure Inv (c : LFUCache) : Prop where
  capNonneg : 0 ≤ c.capacity
  dataNodup : (c.data.map Prod.fst).Nodup
  dataKey : ∀ k n, alookup k c.data = some n → n.key = k
  freqPos : ∀ k n, alookup k c.data = some n → 1 ≤ n.freq
  fmNodup : (c.freq_map.map Prod.fst).Nodup
  fmNonempty : ∀ f g, alookup f c.freq_map = some g → g ≠ []
  fmGroupNodup : ∀ f g, alookup f c.freq_map = some g → g.Nodup
  fmSound : ∀ f g, alookup f c.freq_map = some g → ∀ k, k ∈ g →
      ∃ n, alookup k c.data = some n ∧ n.freq = f
  fmComplete : ∀ k n, alookup k c.data = some n →
      ∃ g, alookup n.freq c.freq_map = some g ∧ k ∈ g
  minLe : ∀ k n, alookup k c.data = some n → c.min_freq ≤ n.freq
  minMem : c.data ≠ [] → ∃ k n, alookup k c.data = some n ∧ n.freq = c.min_freq
  sizeLe : (c.data.length : Int) ≤ c.capacity

/-- The key accessed by an operation in state `c`: the key of a `get` hit or
of any non-no-op `set` (updating an existing key, or inserting — both count
as an access per the spec); `none` for a `get` miss and for a `set` against a
zero-capacity store. -/
def accessed (c : LFUCache) : Op → Option Int
  | Op.get k => if (alookup k c.data).isSome then some k else none
  | Op.set k _ => if c.capacity = 0 then none else some k

/-- Update the last-access-time table after the operation `op` ran at time
`t` in state `c`. -/
def updLA (c : LFUCache) (op : Op) (t : Nat) (la : List (Int × Nat)) :
    List (Int × Nat) :=
  match accessed c op with
  | some k => aset k t la
  | none => la

/-- The last-access time of a key (0 when never accessed). -/
def laOf (la : List (Int × Nat)) (k : Int) : Nat := (alookup k la).getD 0

/-- Whether an operation names the key `k`. -/
def opTouches : Op → Int → Bool
  | Op.get a, k => a == k
  | Op.set a _, k => a == k

/-- Reachability instrumented with a ghost clock `t` (one tick per
operation) and the table `la` of each key's last access time. -/
inductive TReach (cap : Int) : LFUCache → List (Int × Nat) → Nat → Prop
  | init : TReach cap (init cap) [] 0
  | step {c : LFUCache} {la : List (Int × Nat)} {t : Nat} {c' : LFUCache}
      (op : Op) : TReach cap c la t → step c op = some c' →
      TReach cap c' (updLA c op t la) (t + 1)

/-- The recency invariant: all recorded access times are in the past, every
live key has a recorded access, and every frequency group is ordered by
last-access time, oldest first. -/
structure TInv (c : LFUCache) (la : List (Int × Nat)) (t : Nat) : Prop where
  laLt : ∀ k tk, alookup k la = some tk → tk < t
  laLive : ∀ k n, alookup k c.data = some n → (alookup k la).isSome
  grpSorted : ∀ f g, alookup f c.freq_map = some g →
      g.Pairwise (fun a b => laOf la a < laOf la b)

/-! ### Association-list lemmas -/

theorem alookup_eq_none {α β : Type} [DecidableEq α] {k : α} {l : List (α × β)} :
    alookup k l = none ↔ k ∉ l.map Prod.fst := by
  induction l with
  | nil => simp [alookup]
  | cons p rest ih =>
    obtain ⟨a, b⟩ := p
    by_cases h : k = a <;> simp [alookup, h, ih]

theorem alookup_isSome_iff {α β : Type} [DecidableEq α] {k : α} {l : List (α × β)} :
    (alookup k l).isSome = true ↔ k ∈ l.map Prod.fst := by
  rw [Option.isSome_iff_ne_none, ne_eq, alookup_eq_none]
  exact not_not

theorem alookup_aset_self {α β : Type} [DecidableEq α] (k : α) (v : β)
    (l : List (α × β)) : alookup k (aset k v l) = some v := by
  induction l with
  | nil => simp [aset, alookup]
  | cons p rest ih =>
    obtain ⟨a, b⟩ := p
    by_cases h : k = a <;> simp [aset, alookup, h, ih]

theorem alookup_aset_ne {α β : Type} [DecidableEq α] {k k' : α} (v : β)
    (l : List (α × β)) (h : k' ≠ k) :
    alookup k' (aset k v l) = alookup k' l := by
  induction l with
  | nil => simp [aset, alookup, h]
  | cons p rest ih =>
    obtain ⟨a, b⟩ := p
    by_cases hka : k = a
    · subst hka
      simp [aset, alookup, h, ih]
    · by_cases hk'a : k' = a <;> simp [aset, alookup, hka, hk'a, ih]

theorem keys_aset_of_mem {α β : Type} [DecidableEq α] {k : α} (v : β)
    {l : List (α × β)} (h : k ∈ l.map Prod.fst) :
    (aset k v l).map Prod.fst = l.map Prod.fst := by
  induction l with
  | nil => simp at h
  | cons p rest ih =>
    obtain ⟨a, b⟩ := p
    by_cases hka : k = a
    · subst hka; simp [aset]
    · simp only [List.map_cons, List.mem_cons] at h
      rcases h with h | h

      · exact absurd h hka
      · simp [aset, hka, ih h]

theorem keys_aset_of_not_mem {α β : Type} [DecidableEq α] {k : α} (v : β)
    {l : List (α × β)} (h : k ∉ l.map Prod.fst) :
    (aset k v l).map Prod.fst = l.map Prod.fst ++ [k] := by
  induction l with
  | nil => simp [aset]
  | cons p rest ih =>
    obtain ⟨a, b⟩ := p
    simp only [List.map_cons, List.mem_cons] at h
    push_neg at h
    simp [aset, h.1, ih h.2]

theorem nodup_keys_aset {α β : Type} [DecidableEq α] {k : α} (v : β)
    {l : List (α × β)} (h : (l.map Prod.fst).Nodup) :
    ((aset k v l).map Prod.fst).Nodup := by
  by_cases hm : k ∈ l.map Prod.fst
  · rw [keys_aset_of_mem v hm]; exact h
  · rw [keys_aset_of_not_mem v hm]
    refine List.Nodup.append h (List.nodup_singleton k) ?_
    intro a ha hka
    rw [List.mem_singleton] at hka
    subst hka
    exact hm ha

theorem length_aset_of_mem {α β : Type} [DecidableEq α] {k : α} (v : β)
    {l : List (α × β)} (h : k ∈ l.map Prod.fst) :
    (aset k v l).length = l.length := by
  have := keys_aset_of_mem v h (β := β)
  have h1 : ((aset k v l).map Prod.fst).length = (l.map Prod.fst).length := by
    rw [this]
  simpa using h1

theorem length_aset_of_not_mem {α β : Type} [DecidableEq α] {k : α} (v : β)
    {l : List (α × β)} (h : k ∉ l.map Prod.fst) :
    (aset k v l).length = l.length + 1 := by
  have := keys_aset_of_not_mem v h (β := β)
  have h1 : ((aset k v l).map Prod.fst).length = (l.map Prod.fst ++ [k]).length := by
    rw [this]
  simpa using h1

theorem aset_aset {α β : Type} [DecidableEq α] (k : α) (v v' : β)
    (l : List (α × β)) : aset k v' (aset k v l) = aset k v' l := by
  induction l with
  | nil => simp [aset]
  | cons p rest ih =>
    obtain ⟨a, b⟩ := p
    by_cases h : k = a <;> simp [aset, h, ih]

theorem adel_sublist {α β : Type} [DecidableEq α] (k : α) (l : List (α × β)) :
    List.Sublist (adel k l) l := by
  induction l with
  | nil => simp [adel]
  | cons p rest ih =>
    obtain ⟨a, b⟩ := p
    by_cases h : k = a
    · simp only [adel, if_pos h]
      exact List.sublist_cons_self (a, b) rest
    · simp only [adel, if_neg h]
      exact List.Sublist.cons₂ (a, b) ih

theorem alookup_adel_ne {α β : Type} [DecidableEq α] {k k' : α}
    (l : List (α × β)) (h : k' ≠ k) :
    alookup k' (adel k l) = alookup k' l := by
  induction l with
  | nil => simp [adel]
  | cons p rest ih =>
    obtain ⟨a, b⟩ := p
    by_cases hka : k = a
    · subst hka
      simp [adel, alookup, h]
    · by_cases hk'a : k' = a <;> simp [adel, alookup, hka, hk'a, ih]

theorem alookup_adel_self {α β : Type} [DecidableEq α] {k : α}
    {l : List (α × β)} (h : (l.map Prod.fst).Nodup) :
    alookup k (adel k l) = none := by
  induction l with
  | nil => simp [adel, alookup]
  | cons p rest ih =>
    obtain ⟨a, b⟩ := p
    simp only [List.map_cons, List.nodup_cons] at h
    by_cases hka : k = a
    · subst hka
      simp only [adel, if_pos rfl]
      exact alookup_eq_none.2 h.1
    · simp [adel, alookup, hka, ih h.2]

theorem length_adel_of_mem {α β : Type} [DecidableEq α] {k : α}
    {l : List (α × β)} (h : k ∈ l.map Prod.fst) :
    (adel k l).length + 1 = l.length := by
  induction l with
  | nil => simp at h
  | cons p rest ih =>
    obtain ⟨a, b⟩ := p
    by_cases hka : k = a
    · simp [adel, hka]
    · simp only [List.map_cons, List.mem_cons] at h
      rcases h with h | h
      · exact absurd h hka
      · simp [adel, hka, ih h]

theorem adelF_eq_some {α β : Type} [DecidableEq α] {k : α}
    {l : List (α × β)} (h : k ∈ l.map Prod.fst) :
    adelF k l = some (adel k l) := by
  induction l with
  | nil => simp at h
  | cons p rest ih =>
    obtain ⟨a, b⟩ := p
    by_cases hka : k = a
    · simp [adelF, adel, hka]
    · simp only [List.map_cons, List.mem_cons] at h
      rcases h with h | h
      · exact absurd h hka
      · simp [adelF, adel, hka, ih h]

theorem ldel_eq_none {k : Int} {g : List Int} :
    ldel k g = none ↔ k ∉ g := by
  induction g with
  | nil => simp [ldel]
  | cons a rest ih =>
    by_cases h : k = a <;> simp [ldel, h, ih]

theorem ldel_sublist {k : Int} {g g' : List Int} (h : ldel k g = some g') :
    List.Sublist g' g := by
  induction g generalizing g' with
  | nil => simp [ldel] at h
  | cons a rest ih =>
    by_cases hka : k = a
    · simp only [ldel, if_pos hka, Option.some.injEq] at h
      exact h ▸ List.sublist_cons_self a rest
    · simp only [ldel, if_neg hka, Option.map_eq_some'] at h
      obtain ⟨l1, hl1, rfl⟩ := h
      exact List.Sublist.cons₂ a (ih hl1)

theorem ldel_of_mem {k : Int} {g : List Int} (h : k ∈ g) :
    ∃ g', ldel k g = some g' := by
  cases hg : ldel k g with
  | none => exact absurd (ldel_eq_none.1 hg) (by simpa using h)
  | some g' => exact ⟨g', rfl⟩

theorem mem_ldel_of_ne {k x : Int} {g g' : List Int} (h : ldel k g = some g')
    (hx : x ∈ g) (hxk : x ≠ k) : x ∈ g' := by
  induction g generalizing g' with
  | nil => simp [ldel] at h
  | cons a rest ih =>
    by_cases hka : k = a
    · simp only [ldel, if_pos hka, Option.some.injEq] at h
      subst h
      rcases List.mem_cons.1 hx with h | h
      · exact absurd (h.trans hka.symm) hxk
      · exact h
    · simp only [ldel, if_neg hka, Option.map_eq_some'] at h
      obtain ⟨l1, hl1, rfl⟩ := h
      rcases List.mem_cons.1 hx with h | h
      · exact h ▸ List.mem_cons_self a l1
      · exact List.mem_cons_of_mem a (ih hl1 h)

theorem not_mem_ldel_self {k : Int} {g g' : List Int} (hnd : g.Nodup)
    (h : ldel k g = some g') : k ∉ g' := by
  induction g generalizing g' with
  | nil => simp [ldel] at h
  | cons a rest ih =>
    simp only [List.nodup_cons] at hnd
    by_cases hka : k = a
    · simp only [ldel, if_pos hka, Option.some.injEq] at h
      subst h
      exact hka ▸ hnd.1
    · simp only [ldel, if_neg hka, Option.map_eq_some'] at h
      obtain ⟨l1, hl1, rfl⟩ := h
      simpa [hka] using ih hnd.2 hl1

theorem mem_keys_of_alookup {α β : Type} [DecidableEq α] {k : α}
    {l : List (α × β)} {v : β} (h : alookup k l = some v) :
    k ∈ l.map Prod.fst :=
  alookup_isSome_iff.1 (by rw [h]; rfl)

theorem ne_nil_of_alookup {α β : Type} [DecidableEq α] {k : α}
    {l : List (α × β)} {v : β} (h : alookup k l = some v) : l ≠ [] := by
  intro he
  rw [he] at h
  simp [alookup] at h

/-! ### Characterization of `_update_freq` -/

theorem update_freq_eq (c : LFUCache) (node : Node) {g g' : List Int}
    (hg : alookup node.freq c.freq_map = some g)
    (hgdel : ldel node.key g = some g') :
    update_freq c node =
      some ({ node with freq := node.freq + 1 }, { c with
        data := aset node.key { node with freq := node.freq + 1 } c.data
        freq_map := aset (node.freq + 1)
          (if node.key ∈ (alookup (node.freq + 1)
               (if g' = [] then adel node.freq (aset node.freq g' c.freq_map)
                else aset node.freq g' c.freq_map)).getD []
           then (alookup (node.freq + 1)
               (if g' = [] then adel node.freq (aset node.freq g' c.freq_map)
                else aset node.freq g' c.freq_map)).getD []
           else ((alookup (node.freq + 1)
               (if g' = [] then adel node.freq (aset node.freq g' c.freq_map)
                else aset node.freq g' c.freq_map)).getD []) ++ [node.key])
          (if g' = [] then adel node.freq (aset node.freq g' c.freq_map)
           else aset node.freq g' c.freq_map)
        min_freq := if g' = [] ∧ node.freq = c.min_freq then c.min_freq + 1
                    else c.min_freq }) := by
  unfold update_freq
  rw [hg]
  simp only [Option.getD_some]
  rw [hgdel]

/-- Full characterization of a successful `_update_freq` call on the node
stored at `node.key`: the call returns, the invariant is preserved, and the
new `data`, `freq_map` and `min_freq` are as described. -/
theorem update_freq_spec {c : LFUCache} {node : Node} (hI : Inv c)
    (hk : alookup node.key c.data = some node) :
    ∃ c' g g',
      update_freq c node = some ({ node with freq := node.freq + 1 }, c') ∧
      alookup node.freq c.freq_map = some g ∧ ldel node.key g = some g' ∧
      Inv c' ∧
      c'.capacity = c.capacity ∧
      c'.data = aset node.key { node with freq := node.freq + 1 } c.data ∧
      alookup node.freq c'.freq_map = (if g' = [] then none else some g') ∧
      alookup (node.freq + 1) c'.freq_map =
        some (((alookup (node.freq + 1) c.freq_map).getD []) ++ [node.key]) ∧
      (∀ x, x ≠ node.freq → x ≠ node.freq + 1 →
        alookup x c'.freq_map = alookup x c.freq_map) ∧
      c'.min_freq = (if g' = [] ∧ node.freq = c.min_freq then c.min_freq + 1
                     else c.min_freq) := by
  obtain ⟨g, hg, hkg⟩ := hI.fmComplete node.key node hk
  obtain ⟨g', hgdel⟩ := ldel_of_mem hkg
  have hgnd : g.Nodup := hI.fmGroupNodup _ _ hg
  have hkg' : node.key ∉ g' := not_mem_ldel_self hgnd hgdel
  have hsucc : node.freq + 1 ≠ node.freq := Nat.succ_ne_self node.freq
  -- the intermediate frequency map after removing the key from its group
  have hL1 : alookup node.freq
      (if g' = [] then adel node.freq (aset node.freq g' c.freq_map)
       else aset node.freq g' c.freq_map) =
      (if g' = [] then none else some g') := by
    by_cases hge : g' = []
    · rw [if_pos hge, if_pos hge]
      exact alookup_adel_self (nodup_keys_aset g' hI.fmNodup)
    · rw [if_neg hge, if_neg hge]
      exact alookup_aset_self node.freq g' c.freq_map
  have hL2 : ∀ x, x ≠ node.freq → alookup x
      (if g' = [] then adel node.freq (aset node.freq g' c.freq_map)
       else aset node.freq g' c.freq_map) = alookup x c.freq_map := by
    intro x hx
    by_cases hge : g' = []
    · rw [if_pos hge, alookup_adel_ne _ hx, alookup_aset_ne g' c.freq_map hx]
    · rw [if_neg hge, alookup_aset_ne g' c.freq_map hx]
  have hL3 : (((if g' = [] then adel node.freq (aset node.freq g' c.freq_map)
       else aset node.freq g' c.freq_map)).map Prod.fst).Nodup := by
    by_cases hge : g' = []
    · rw [if_pos hge]
      exact List.Nodup.sublist (List.Sublist.map Prod.fst (adel_sublist _ _))
        (nodup_keys_aset g' hI.fmNodup)
    · rw [if_neg hge]
      exact nodup_keys_aset g' hI.fmNodup
  -- the group the key is promoted into
  have hg2eq : (alookup (node.freq + 1)
      (if g' = [] then adel node.freq (aset node.freq g' c.freq_map)
       else aset node.freq g' c.freq_map)) =
      alookup (node.freq + 1) c.freq_map := hL2 _ hsucc
  have hk2 : node.key ∉ (alookup (node.freq + 1) c.freq_map).getD [] := by
    intro hmem
    cases hfg : alookup (node.freq + 1) c.freq_map with
    | none => rw [hfg] at hmem; simp at hmem
    | some gg =>
      rw [hfg] at hmem
      simp only [Option.getD_some] at hmem
      obtain ⟨n, hn, hnf⟩ := hI.fmSound _ _ hfg node.key hmem
      rw [hk] at hn
      injection hn with hn
      rw [← hn] at hnf
      exact hsucc hnf.symm
  have heq := update_freq_eq c node hg hgdel
  rw [hg2eq, if_neg hk2] at heq
  refine ⟨{ c with
      data := aset node.key { node with freq := node.freq + 1 } c.data
      freq_map := aset (node.freq + 1)
        (((alookup (node.freq + 1) c.freq_map).getD []) ++ [node.key])
        (if g' = [] then adel node.freq (aset node.freq g' c.freq_map)
         else aset node.freq g' c.freq_map)
      min_freq := if g' = [] ∧ node.freq = c.min_freq then c.min_freq + 1
                  else c.min_freq }, g, g', heq, hg, hgdel,
    ?_, rfl, rfl, ?_, ?_, ?_, rfl⟩
  · -- the invariant is preserved
    refine ⟨hI.capNonneg, ?_, ?_, ?_, ?_, ?_, ?_, ?_, ?_, ?_, ?_, ?_⟩
    · exact nodup_keys_aset _ hI.dataNodup
    · intro k n h
      by_cases hk' : k = node.key
      · subst hk'
        rw [alookup_aset_self] at h
        injection h with h
        rw [← h]
      · rw [alookup_aset_ne _ _ hk'] at h
        exact hI.dataKey k n h
    · intro k n h
      by_cases hk' : k = node.key
      · subst hk'
        rw [alookup_aset_self] at h
        injection h with h
        rw [← h]
        exact Nat.le_succ_of_le (hI.freqPos _ _ hk)
      · rw [alookup_aset_ne _ _ hk'] at h
        exact hI.freqPos k n h
    · exact nodup_keys_aset _ hL3
    · intro f' g'' hlook
      by_cases hf1 : f' = node.freq + 1
      · subst hf1
        rw [alookup_aset_self] at hlook
        injection hlook with hlook
        rw [← hlook]
        simp
      · rw [alookup_aset_ne _ _ hf1] at hlook
        by_cases hf0 : f' = node.freq
        · subst hf0
          rw [hL1] at hlook
          by_cases hge : g' = []
          · rw [if_pos hge] at hlook
            exact absurd hlook (by simp)
          · rw [if_neg hge] at hlook
            injection hlook with hlook
            rw [← hlook]
            exact hge
        · rw [hL2 _ hf0] at hlook
          exact hI.fmNonempty _ _ hlook
    · intro f' g'' hlook
      by_cases hf1 : f' = node.freq + 1
      · subst hf1
        rw [alookup_aset_self] at hlook
        injection hlook with hlook
        rw [← hlook]
        refine List.Nodup.append ?_ (List.nodup_singleton _) ?_
        · cases hfg : alookup (node.freq + 1) c.freq_map with
          | none => simp
          | some gg => simpa using hI.fmGroupNodup _ _ hfg
        · intro a ha hka
          rw [List.mem_singleton] at hka
          subst hka
          exact hk2 ha
      · rw [alookup_aset_ne _ _ hf1] at hlook
        by_cases hf0 : f' = node.freq
        · subst hf0
          rw [hL1] at hlook
          by_cases hge : g' = []
          · rw [if_pos hge] at hlook
            exact absurd hlook (by simp)
          · rw [if_neg hge] at hlook
            injection hlook with hlook
            rw [← hlook]
            exact List.Nodup.sublist (ldel_sublist hgdel) hgnd
        · rw [hL2 _ hf0] at hlook
          exact hI.fmGroupNodup _ _ hlook
    · intro f' g'' hlook x hx
      by_cases hf1 : f' = node.freq + 1
      · subst hf1
        rw [alookup_aset_self] at hlook
        injection hlook with hlook
        rw [← hlook] at hx
        rcases List.mem_append.1 hx with hx | hx
        · cases hfg : alookup (node.freq + 1) c.freq_map with
          | none => rw [hfg] at hx; simp at hx
          | some gg =>
            rw [hfg] at hx
            simp only [Option.getD_some] at hx
            obtain ⟨n, hn, hnf⟩ := hI.fmSound _ _ hfg x hx
            have hxk : x ≠ node.key := by
              intro hxe
              subst hxe
              exact hk2 (by rw [hfg]; simpa using hx)
            exact ⟨n, by rw [alookup_aset_ne _ _ hxk]; exact hn, hnf⟩
        · rw [List.mem_singleton] at hx
          subst hx
          exact ⟨{ node with freq := node.freq + 1 }, alookup_aset_self _ _ _, rfl⟩
      · rw [alookup_aset_ne _ _ hf1] at hlook
        by_cases hf0 : f' = node.freq
        · subst hf0
          rw [hL1] at hlook
          by_cases hge : g' = []
          · rw [if_pos hge] at hlook
            exact absurd hlook (by simp)
          · rw [if_neg hge] at hlook
            injection hlook with hlook
            rw [← hlook] at hx
            have hxk : x ≠ node.key := fun hxe => hkg' (hxe ▸ hx)
            obtain ⟨n, hn, hnf⟩ :=
              hI.fmSound _ _ hg x (List.Sublist.subset (ldel_sublist hgdel) hx)
            exact ⟨n, by rw [alookup_aset_ne _ _ hxk]; exact hn, hnf⟩
        · rw [hL2 _ hf0] at hlook
          obtain ⟨n, hn, hnf⟩ := hI.fmSound _ _ hlook x hx
          have hxk : x ≠ node.key := by
            intro hxe
            subst hxe
            rw [hk] at hn
            injection hn with hn
            rw [← hn] at hnf
            exact hf0 hnf.symm
          exact ⟨n, by rw [alookup_aset_ne _ _ hxk]; exact hn, hnf⟩
    · intro k n h
      by_cases hk' : k = node.key
      · subst hk'
        rw [alookup_aset_self] at h
        injection h with h
        rw [← h]
        exact ⟨_, alookup_aset_self _ _ _, by simp⟩
      · rw [alookup_aset_ne _ _ hk'] at h
        obtain ⟨g0, hg0, hkg0⟩ := hI.fmComplete k n h
        by_cases hf1 : n.freq = node.freq + 1
        · rw [hf1] at hg0 ⊢
          refine ⟨_, alookup_aset_self _ _ _, ?_⟩
          rw [hg0]
          simp only [Option.getD_some]
          exact List.mem_append_left _ hkg0
        · by_cases hf0 : n.freq = node.freq
          · rw [hf0] at hg0 ⊢
            rw [hg] at hg0
            injection hg0 with hg0
            have hkg'' : k ∈ g' := mem_ldel_of_ne hgdel (hg0 ▸ hkg0) hk'
            have hge : g' ≠ [] := fun he => by simp [he] at hkg''
            refine ⟨g', ?_, hkg''⟩
            rw [alookup_aset_ne _ _ (Ne.symm hsucc), hL1, if_neg hge]
          · refine ⟨g0, ?_, hkg0⟩
            rw [alookup_aset_ne _ _ hf1, hL2 _ hf0]
            exact hg0
    · intro k n h
      by_cases hcond : g' = [] ∧ node.freq = c.min_freq
      · simp only [if_pos hcond]
        by_cases hk' : k = node.key
        · subst hk'
          rw [alookup_aset_self] at h
          injection h with h
          rw [← h]
          simp [hcond.2]
        · rw [alookup_aset_ne _ _ hk'] at h
          have hle := hI.minLe k n h
          rcases Nat.lt_or_ge c.min_freq n.freq with hlt | hge
          · exact hlt
          · have heqf : n.freq = c.min_freq := Nat.le_antisymm hge hle
            obtain ⟨g0, hg0, hkg0⟩ := hI.fmComplete k n h
            rw [heqf, ← hcond.2, hg] at hg0
            injection hg0 with hg0
            have : k ∈ g' := mem_ldel_of_ne hgdel (hg0 ▸ hkg0) hk'
            rw [hcond.1] at this
            simp at this
      · simp only [if_neg hcond]
        by_cases hk' : k = node.key
        · subst hk'
          rw [alookup_aset_self] at h
          injection h with h
          rw [← h]
          exact Nat.le_succ_of_le (hI.minLe _ _ hk)
        · rw [alookup_aset_ne _ _ hk'] at h
          exact hI.minLe k n h
    · intro _
      by_cases hcond : g' = [] ∧ node.freq = c.min_freq
      · refine ⟨node.key, { node with freq := node.freq + 1 },
          alookup_aset_self _ _ _, ?_⟩
        rw [if_pos hcond]
        show node.freq + 1 = c.min_freq + 1
        rw [hcond.2]
      · obtain ⟨k0, n0, h0, hf0⟩ := hI.minMem (ne_nil_of_alookup hk)
        by_cases hk0 : k0 = node.key
        · subst hk0
          rw [hk] at h0
          injection h0 with h0
          rw [← h0] at hf0
          have hge : g' ≠ [] := by
            intro he
            exact hcond ⟨he, hf0⟩
          obtain ⟨x, hx⟩ := List.exists_mem_of_ne_nil g' hge
          have hxk : x ≠ node.key := fun hxe => hkg' (hxe ▸ hx)
          obtain ⟨n, hn, hnf⟩ :=
            hI.fmSound _ _ hg x (List.Sublist.subset (ldel_sublist hgdel) hx)
          refine ⟨x, n, by rw [alookup_aset_ne _ _ hxk]; exact hn, ?_⟩
          simp only [if_neg hcond]
          rw [hnf, hf0]
        · refine ⟨k0, n0, by rw [alookup_aset_ne _ _ hk0]; exact h0, ?_⟩
          simp only [if_neg hcond]
          exact hf0
    · show ((aset node.key _ c.data).length : Int) ≤ c.capacity
      rw [length_aset_of_mem _ (mem_keys_of_alookup hk)]
      exact hI.sizeLe
  · -- lookup at the old frequency
    show alookup node.freq (aset (node.freq + 1) _ _) = _
    rw [alookup_aset_ne _ _ (Ne.symm hsucc)]
    exact hL1
  · -- lookup at the new frequency
    exact alookup_aset_self _ _ _
  · -- untouched frequencies
    intro x hxf hxf1
    show alookup x (aset (node.freq + 1) _ _) = _
    rw [alookup_aset_ne _ _ hxf1]
    exact hL2 x hxf

/-- A `get` hit returns the stored value and promotes the entry. -/
theorem get_hit_spec {c : LFUCache} {key : Int} {node : Node} (hI : Inv c)
    (hk : alookup key c.data = some node) :
    ∃ c' g g', get c key = some (some node.value, c') ∧
      alookup node.freq c.freq_map = some g ∧ ldel key g = some g' ∧
      Inv c' ∧ c'.capacity = c.capacity ∧
      c'.data = aset key { node with freq := node.freq + 1 } c.data ∧
      alookup node.freq c'.freq_map = (if g' = [] then none else some g') ∧
      alookup (node.freq + 1) c'.freq_map =
        some (((alookup (node.freq + 1) c.freq_map).getD []) ++ [key]) ∧
      (∀ x, x ≠ node.freq → x ≠ node.freq + 1 →
        alookup x c'.freq_map = alookup x c.freq_map) ∧
      c'.min_freq = (if g' = [] ∧ node.freq = c.min_freq then c.min_freq + 1
                     else c.min_freq) := by
  have hkey : node.key = key := hI.dataKey key node hk
  subst hkey
  obtain ⟨c', g, g', hupd, hg, hgdel, hI', hcap, hdata, hf, hf1, hother, hmin⟩ :=
    update_freq_spec hI hk
  refine ⟨c', g, g', ?_, hg, hgdel, hI', hcap, hdata, hf, hf1, hother, hmin⟩
  simp only [get, hk, hupd]

/-- Replacing a stored value in place preserves the invariant. -/
theorem inv_set_value {c : LFUCache} {key : Int} (v : Int) {node : Node}
    (hI : Inv c) (hk : alookup key c.data = some node) :
    Inv { c with data := aset key { node with value := v } c.data } := by
  refine ⟨hI.capNonneg, nodup_keys_aset _ hI.dataNodup, ?_, ?_, hI.fmNodup,
    hI.fmNonempty, hI.fmGroupNodup, ?_, ?_, ?_, ?_, ?_⟩
  · intro k n h
    by_cases hk' : k = key
    · subst hk'
      rw [alookup_aset_self] at h
      injection h with h
      rw [← h]
      exact hI.dataKey _ node hk
    · rw [alookup_aset_ne _ _ hk'] at h
      exact hI.dataKey k n h
  · intro k n h
    by_cases hk' : k = key
    · subst hk'
      rw [alookup_aset_self] at h
      injection h with h
      rw [← h]
      exact hI.freqPos _ node hk
    · rw [alookup_aset_ne _ _ hk'] at h
      exact hI.freqPos k n h
  · intro f g hfg x hx
    obtain ⟨n, hn, hnf⟩ := hI.fmSound f g hfg x hx
    by_cases hx' : x = key
    · subst hx'
      rw [hk] at hn
      injection hn with hn
      refine ⟨{ node with value := v }, alookup_aset_self _ _ _, ?_⟩
      show node.freq = f
      rw [← hnf, ← hn]
    · exact ⟨n, by rw [alookup_aset_ne _ _ hx']; exact hn, hnf⟩
  · intro k n h
    by_cases hk' : k = key
    · subst hk'
      rw [alookup_aset_self] at h
      injection h with h
      rw [← h]
      show ∃ g, alookup node.freq c.freq_map = some g ∧ _ ∈ g
      exact hI.fmComplete _ node hk
    · rw [alookup_aset_ne _ _ hk'] at h
      exact hI.fmComplete k n h
  · intro k n h
    by_cases hk' : k = key
    · subst hk'
      rw [alookup_aset_self] at h
      injection h with h
      rw [← h]
      exact hI.minLe _ node hk
    · rw [alookup_aset_ne _ _ hk'] at h
      exact hI.minLe k n h
  · intro _
    obtain ⟨k0, n0, h0, hf0⟩ := hI.minMem (ne_nil_of_alookup hk)
    by_cases hk0 : k0 = key
    · subst hk0
      rw [hk] at h0
      injection h0 with h0
      refine ⟨k0, { node with value := v }, alookup_aset_self _ _ _, ?_⟩
      show node.freq = _
      rw [← hf0, ← h0]
    · exact ⟨k0, n0, by rw [alookup_aset_ne _ _ hk0]; exact h0, hf0⟩
  · show ((aset key _ c.data).length : Int) ≤ c.capacity
    rw [length_aset_of_mem _ (mem_keys_of_alookup hk)]
    exact hI.sizeLe

/-- Full characterization of `set` on an existing key: the value is replaced
and the entry promoted, exactly as by a `get` hit. -/
theorem set_existing_spec {c : LFUCache} {key v : Int} {node : Node}
    (hI : Inv c) (hcap0 : ¬ c.capacity = 0)
    (hk : alookup key c.data = some node) :
    ∃ c' g g', set c key v = some c' ∧
      alookup node.freq c.freq_map = some g ∧ ldel key g = some g' ∧
      Inv c' ∧ c'.capacity = c.capacity ∧
      c'.data = aset key { node with value := v, freq := node.freq + 1 } c.data ∧
      alookup node.freq c'.freq_map = (if g' = [] then none else some g') ∧
      alookup (node.freq + 1) c'.freq_map =
        some (((alookup (node.freq + 1) c.freq_map).getD []) ++ [key]) ∧
      (∀ x, x ≠ node.freq → x ≠ node.freq + 1 →
        alookup x c'.freq_map = alookup x c.freq_map) ∧
      c'.min_freq = (if g' = [] ∧ node.freq = c.min_freq then c.min_freq + 1
                     else c.min_freq) := by
  have hkey : node.key = key := hI.dataKey key node hk
  subst hkey
  obtain ⟨node1, hnode1⟩ : ∃ n1 : Node, n1 = { node with value := v } := ⟨_, rfl⟩
  obtain ⟨c1, hc1⟩ : ∃ c1 : LFUCache,
      c1 = { c with data := aset node.key node1 c.data } := ⟨_, rfl⟩
  have e1 : node1.key = node.key := by rw [hnode1]
  have e2 : node1.freq = node.freq := by rw [hnode1]
  have e3 : node1.value = v := by rw [hnode1]
  have f1 : c1.capacity = c.capacity := by rw [hc1]
  have f2 : c1.freq_map = c.freq_map := by rw [hc1]
  have f3 : c1.min_freq = c.min_freq := by rw [hc1]
  have f4 : c1.data = aset node.key node1 c.data := by rw [hc1]
  have hI1 : Inv c1 := by
    rw [hc1, hnode1]
    exact inv_set_value v hI hk
  have hk1 : alookup node1.key c1.data = some node1 := by
    rw [e1, f4]
    exact alookup_aset_self _ _ _
  obtain ⟨c', g, g', hupd, hg, hgdel, hI', hcap, hdata, hf, hf1', hother, hmin⟩ :=
    update_freq_spec hI1 hk1
  rw [e2, f2] at hg
  rw [e1] at hgdel
  rw [f1] at hcap
  rw [e1, e2, e3, f4, hnode1] at hdata
  rw [aset_aset] at hdata
  rw [e2] at hf
  rw [e1, e2, f2] at hf1'
  rw [e2, f2] at hother
  rw [e2, f3] at hmin
  rw [hc1, hnode1] at hupd
  refine ⟨c', g, g', ?_, hg, hgdel, hI', hcap, hdata, hf, hf1', hother, hmin⟩
  simp only [set, if_neg hcap0, hk]
  rw [hupd]

/-- Inserting a fresh key with `freq = 1` (appended as newest member of
group 1, with `min_freq` reset to 1) establishes the invariant, given the
structural facts about the pre-insertion state. -/
theorem insert_inv {cb : LFUCache} {key v : Int}
    (hcap : 0 ≤ cb.capacity)
    (hnd : (cb.data.map Prod.fst).Nodup)
    (hkeyF : ∀ k n, alookup k cb.data = some n → n.key = k)
    (hposF : ∀ k n, alookup k cb.data = some n → 1 ≤ n.freq)
    (hfmN : (cb.freq_map.map Prod.fst).Nodup)
    (hfmNe : ∀ f g, alookup f cb.freq_map = some g → g ≠ [])
    (hfmGN : ∀ f g, alookup f cb.freq_map = some g → g.Nodup)
    (hfmS : ∀ f g, alookup f cb.freq_map = some g → ∀ k, k ∈ g →
        ∃ n, alookup k cb.data = some n ∧ n.freq = f)
    (hfmC : ∀ k n, alookup k cb.data = some n →
        ∃ g, alookup n.freq cb.freq_map = some g ∧ k ∈ g)
    (habs : alookup key cb.data = none)
    (hlen : (cb.data.length : Int) + 1 ≤ cb.capacity) :
    Inv { cb with
      data := aset key { key := key, value := v, freq := 1 } cb.data
      freq_map := aset 1 (((alookup 1 cb.freq_map).getD []) ++ [key]) cb.freq_map
      min_freq := 1 } := by
  have hkabs : key ∉ cb.data.map Prod.fst := alookup_eq_none.1 habs
  have hkg1 : key ∉ (alookup 1 cb.freq_map).getD [] := by
    intro hmem
    cases hfg : alookup 1 cb.freq_map with
    | none => rw [hfg] at hmem; simp at hmem
    | some gg =>
      rw [hfg] at hmem
      simp only [Option.getD_some] at hmem
      obtain ⟨n, hn, _⟩ := hfmS _ _ hfg key hmem
      rw [habs] at hn
      exact absurd hn (by simp)
  refine ⟨hcap, ?_, ?_, ?_, nodup_keys_aset _ hfmN, ?_, ?_, ?_, ?_, ?_, ?_, ?_⟩
  · show ((aset key _ cb.data).map Prod.fst).Nodup
    rw [keys_aset_of_not_mem _ hkabs]
    refine List.Nodup.append hnd (List.nodup_singleton key) ?_
    intro a ha hka
    rw [List.mem_singleton] at hka
    subst hka
    exact hkabs ha
  · intro k n h
    by_cases hk' : k = key
    · subst hk'
      rw [alookup_aset_self] at h
      injection h with h
      rw [← h]
    · rw [alookup_aset_ne _ _ hk'] at h
      exact hkeyF k n h
  · intro k n h
    by_cases hk' : k = key
    · subst hk'
      rw [alookup_aset_self] at h
      injection h with h
      rw [← h]
    · rw [alookup_aset_ne _ _ hk'] at h
      exact hposF k n h
  · intro f g hfg
    by_cases hf1 : f = 1
    · subst hf1
      rw [alookup_aset_self] at hfg
      injection hfg with hfg
      rw [← hfg]
      simp
    · rw [alookup_aset_ne _ _ hf1] at hfg
      exact hfmNe f g hfg
  · intro f g hfg
    by_cases hf1 : f = 1
    · subst hf1
      rw [alookup_aset_self] at hfg
      injection hfg with hfg
      rw [← hfg]
      refine List.Nodup.append ?_ (List.nodup_singleton key) ?_
      · cases hg1 : alookup 1 cb.freq_map with
        | none => simp
        | some gg => simpa using hfmGN _ _ hg1
      · intro a ha hka
        rw [List.mem_singleton] at hka
        subst hka
        exact hkg1 ha
    · rw [alookup_aset_ne _ _ hf1] at hfg
      exact hfmGN f g hfg
  · intro f g hfg x hx
    by_cases hf1 : f = 1
    · subst hf1
      rw [alookup_aset_self] at hfg
      injection hfg with hfg
      rw [← hfg] at hx
      rcases List.mem_append.1 hx with hx | hx
      · cases hg1 : alookup 1 cb.freq_map with
        | none => rw [hg1] at hx; simp at hx
        | some gg =>
          rw [hg1] at hx
          simp only [Option.getD_some] at hx
          obtain ⟨n, hn, hnf⟩ := hfmS _ _ hg1 x hx
          have hxk : x ≠ key := by
            intro hxe
            subst hxe
            rw [habs] at hn
            exact absurd hn (by simp)
          exact ⟨n, by rw [alookup_aset_ne _ _ hxk]; exact hn, hnf⟩
      · rw [List.mem_singleton] at hx
        subst hx
        exact ⟨_, alookup_aset_self _ _ _, rfl⟩
    · rw [alookup_aset_ne _ _ hf1] at hfg
      obtain ⟨n, hn, hnf⟩ := hfmS _ _ hfg x hx
      have hxk : x ≠ key := by
        intro hxe
        subst hxe
        rw [habs] at hn
        exact absurd hn (by simp)
      exact ⟨n, by rw [alookup_aset_ne _ _ hxk]; exact hn, hnf⟩
  · intro k n h
    by_cases hk' : k = key
    · subst hk'
      rw [alookup_aset_self] at h
      injection h with h
      rw [← h]
      refine ⟨_, alookup_aset_self _ _ _, ?_⟩
      exact List.mem_append_right _ (List.mem_singleton_self _)
    · rw [alookup_aset_ne _ _ hk'] at h
      obtain ⟨g0, hg0, hkg0⟩ := hfmC k n h
      by_cases hf1 : n.freq = 1
      · rw [hf1] at hg0 ⊢
        refine ⟨_, alookup_aset_self _ _ _, ?_⟩
        rw [hg0]
        simp only [Option.getD_some]
        exact List.mem_append_left _ hkg0
      · exact ⟨g0, by rw [alookup_aset_ne _ _ hf1]; exact hg0, hkg0⟩
  · intro k n h
    by_cases hk' : k = key
    · subst hk'
      rw [alookup_aset_self] at h
      injection h with h
      rw [← h]
    · rw [alookup_aset_ne _ _ hk'] at h
      exact hposF k n h
  · intro _
    exact ⟨key, _, alookup_aset_self _ _ _, rfl⟩
  · show ((aset key _ cb.data).length : Int) ≤ cb.capacity
    rw [length_aset_of_not_mem _ hkabs]
    push_cast
    exact hlen

/-- A key absent from `data` belongs to no frequency group. -/
theorem key_not_in_group {c : LFUCache}
    (hfmS : ∀ f g, alookup f c.freq_map = some g → ∀ k, k ∈ g →
        ∃ n, alookup k c.data = some n ∧ n.freq = f)
    {key : Int} (habs : alookup key c.data = none) (f : Nat) :
    key ∉ (alookup f c.freq_map).getD [] := by
  intro hmem
  cases hfg : alookup f c.freq_map with
  | none => rw [hfg] at hmem; simp at hmem
  | some gg =>
    rw [hfg] at hmem
    simp only [Option.getD_some] at hmem
    obtain ⟨n, hn, _⟩ := hfmS _ _ hfg key hmem
    rw [habs] at hn
    exact absurd hn (by simp)

/-- Full characterization of `set` on an absent key with spare capacity:
no eviction, a fresh entry at frequency 1. -/
theorem set_noevict_spec {c : LFUCache} {key v : Int} (hI : Inv c)
    (hcap0 : ¬ c.capacity = 0) (habs : alookup key c.data = none)
    (hlen : ¬ c.capacity ≤ (c.data.length : Int)) :
    ∃ c', set c key v = some c' ∧ Inv c' ∧ c'.capacity = c.capacity ∧
      c'.data = aset key { key := key, value := v, freq := 1 } c.data ∧
      alookup 1 c'.freq_map = some (((alookup 1 c.freq_map).getD []) ++ [key]) ∧
      (∀ x, x ≠ 1 → alookup x c'.freq_map = alookup x c.freq_map) ∧
      c'.min_freq = 1 := by
  have hkg1 : key ∉ (alookup 1 c.freq_map).getD [] :=
    key_not_in_group hI.fmSound habs 1
  have hlen' : (c.data.length : Int) + 1 ≤ c.capacity := by omega
  refine ⟨{ c with
      data := aset key { key := key, value := v, freq := 1 } c.data
      freq_map := aset 1 (((alookup 1 c.freq_map).getD []) ++ [key]) c.freq_map
      min_freq := 1 }, ?_, ?_, rfl, rfl, ?_, ?_, rfl⟩
  · simp only [set, if_neg hcap0, habs, if_neg hlen, if_neg hkg1]
  · exact insert_inv hI.capNonneg hI.dataNodup hI.dataKey hI.freqPos hI.fmNodup
      hI.fmNonempty hI.fmGroupNodup hI.fmSound hI.fmComplete habs hlen'
  · exact alookup_aset_self _ _ _
  · intro x hx
    exact alookup_aset_ne _ _ hx

/-- Full characterization of `set` on an absent key at (or beyond) capacity:
the oldest member of the `min_freq` group is evicted, then a fresh entry is
inserted at frequency 1. -/
theorem set_evict_spec {c : LFUCache} {key v : Int} (hI : Inv c)
    (hcap0 : ¬ c.capacity = 0) (habs : alookup key c.data = none)
    (hlen : c.capacity ≤ (c.data.length : Int)) :
    ∃ c' hd grest nh, set c key v = some c' ∧
      alookup c.min_freq c.freq_map = some (hd :: grest) ∧
      alookup hd c.data = some nh ∧ nh.freq = c.min_freq ∧
      Inv c' ∧ c'.capacity = c.capacity ∧
      c'.data = aset key { key := key, value := v, freq := 1 } (adel hd c.data) ∧
      c'.min_freq = 1 ∧
      alookup 1 c'.freq_map =
        some ((if 1 = c.min_freq then grest
               else (alookup 1 c.freq_map).getD []) ++ [key]) ∧
      (∀ x, x ≠ 1 → alookup x c'.freq_map =
        (if x = c.min_freq then (if grest = [] then none else some grest)
         else alookup x c.freq_map)) := by
  have hpos : 0 < c.capacity := lt_of_le_of_ne hI.capNonneg (Ne.symm hcap0)
  have hne : c.data ≠ [] := by
    intro he
    rw [he] at hlen
    simp only [List.length_nil, Nat.cast_zero] at hlen
    omega
  obtain ⟨k0, n0, h0, hf0⟩ := hI.minMem hne
  obtain ⟨gm, hgm0, hk0gm⟩ := hI.fmComplete k0 n0 h0
  rw [hf0] at hgm0
  obtain ⟨hd, grest, rfl⟩ : ∃ hd grest, gm = hd :: grest := by
    cases gm with
    | nil => simp at hk0gm
    | cons a b => exact ⟨a, b, rfl⟩
  obtain ⟨nh, hnh, hnhf⟩ := hI.fmSound _ _ hgm0 hd (List.mem_cons_self hd grest)
  have hgmnd : (hd :: grest).Nodup := hI.fmGroupNodup _ _ hgm0
  have hhgrest : hd ∉ grest := (List.nodup_cons.1 hgmnd).1
  have hgrestnd : grest.Nodup := (List.nodup_cons.1 hgmnd).2
  have hkeyh : key ≠ hd := by
    intro he
    rw [he, hnh] at habs
    exact absurd habs (by simp)
  have hadelF : adelF hd c.data = some (adel hd c.data) :=
    adelF_eq_some (mem_keys_of_alookup hnh)
  have Dd1 : alookup hd (adel hd c.data) = none := alookup_adel_self hI.dataNodup
  have Dd2 : ∀ x, x ≠ hd → alookup x (adel hd c.data) = alookup x c.data :=
    fun x hx => alookup_adel_ne _ hx
  have E1 : alookup c.min_freq
      (if grest = [] then adel c.min_freq (aset c.min_freq grest c.freq_map)
       else aset c.min_freq grest c.freq_map) =
      (if grest = [] then none else some grest) := by
    by_cases hge : grest = []
    · rw [if_pos hge, if_pos hge]
      exact alookup_adel_self (nodup_keys_aset _ hI.fmNodup)
    · rw [if_neg hge, if_neg hge]
      exact alookup_aset_self _ _ _
  have E2 : ∀ x, x ≠ c.min_freq → alookup x
      (if grest = [] then adel c.min_freq (aset c.min_freq grest c.freq_map)
       else aset c.min_freq grest c.freq_map) = alookup x c.freq_map := by
    intro x hx
    by_cases hge : grest = []
    · rw [if_pos hge, alookup_adel_ne _ hx, alookup_aset_ne _ _ hx]
    · rw [if_neg hge, alookup_aset_ne _ _ hx]
  have E3 : (((if grest = [] then adel c.min_freq (aset c.min_freq grest c.freq_map)
       else aset c.min_freq grest c.freq_map)).map Prod.fst).Nodup := by
    by_cases hge : grest = []
    · rw [if_pos hge]
      exact List.Nodup.sublist (List.Sublist.map Prod.fst (adel_sublist _ _))
        (nodup_keys_aset _ hI.fmNodup)
    · rw [if_neg hge]
      exact nodup_keys_aset _ hI.fmNodup
  -- structural facts about the intermediate (post-eviction) state
  have hndcb : ((adel hd c.data).map Prod.fst).Nodup :=
    List.Nodup.sublist (List.Sublist.map Prod.fst (adel_sublist _ _)) hI.dataNodup
  have hkeyFcb : ∀ k n, alookup k (adel hd c.data) = some n → n.key = k := by
    intro k n hkn
    by_cases hk' : k = hd
    · rw [hk', Dd1] at hkn
      exact absurd hkn (by simp)
    · rw [Dd2 k hk'] at hkn
      exact hI.dataKey k n hkn
  have hposFcb : ∀ k n, alookup k (adel hd c.data) = some n → 1 ≤ n.freq := by
    intro k n hkn
    by_cases hk' : k = hd
    · rw [hk', Dd1] at hkn
      exact absurd hkn (by simp)
    · rw [Dd2 k hk'] at hkn
      exact hI.freqPos k n hkn
  have hfmNecb : ∀ f g, alookup f
      (if grest = [] then adel c.min_freq (aset c.min_freq grest c.freq_map)
       else aset c.min_freq grest c.freq_map) = some g → g ≠ [] := by
    intro f g hfg
    by_cases hf' : f = c.min_freq
    · rw [hf', E1] at hfg
      by_cases hge : grest = []
      · rw [if_pos hge] at hfg
        exact absurd hfg (by simp)
      · rw [if_neg hge] at hfg
        injection hfg with hfg
        rw [← hfg]
        exact hge
    · rw [E2 f hf'] at hfg
      exact hI.fmNonempty f g hfg
  have hfmGNcb : ∀ f g, alookup f
      (if grest = [] then adel c.min_freq (aset c.min_freq grest c.freq_map)
       else aset c.min_freq grest c.freq_map) = some g → g.Nodup := by
    intro f g hfg
    by_cases hf' : f = c.min_freq
    · rw [hf', E1] at hfg
      by_cases hge : grest = []
      · rw [if_pos hge] at hfg
        exact absurd hfg (by simp)
      · rw [if_neg hge] at hfg
        injection hfg with hfg
        rw [← hfg]
        exact hgrestnd
    · rw [E2 f hf'] at hfg
      exact hI.fmGroupNodup f g hfg
  have hfmScb : ∀ f g, alookup f
      (if grest = [] then adel c.min_freq (aset c.min_freq grest c.freq_map)
       else aset c.min_freq grest c.freq_map) = some g → ∀ k, k ∈ g →
      ∃ n, alookup k (adel hd c.data) = some n ∧ n.freq = f := by
    intro f g hfg x hx
    by_cases hf' : f = c.min_freq
    · subst hf'
      rw [E1] at hfg
      by_cases hge : grest = []
      · rw [if_pos hge] at hfg
        exact absurd hfg (by simp)
      · rw [if_neg hge] at hfg
        injection hfg with hfg
        rw [← hfg] at hx
        obtain ⟨n, hn, hnf⟩ :=
          hI.fmSound _ _ hgm0 x (List.mem_cons_of_mem hd hx)
        have hxh : x ≠ hd := fun he => hhgrest (he ▸ hx)
        exact ⟨n, by rw [Dd2 x hxh]; exact hn, hnf⟩
    · rw [E2 f hf'] at hfg
      obtain ⟨n, hn, hnf⟩ := hI.fmSound f g hfg x hx
      have hxh : x ≠ hd := by
        intro he
        rw [he, hnh] at hn
        injection hn with hn
        rw [← hn] at hnf
        rw [hnhf] at hnf
        exact hf' hnf.symm
      exact ⟨n, by rw [Dd2 x hxh]; exact hn, hnf⟩
  have hfmCcb : ∀ k n, alookup k (adel hd c.data) = some n →
      ∃ g, alookup n.freq
        (if grest = [] then adel c.min_freq (aset c.min_freq grest c.freq_map)
         else aset c.min_freq grest c.freq_map) = some g ∧ k ∈ g := by
    intro k n hkn
    by_cases hk' : k = hd
    · rw [hk', Dd1] at hkn
      exact absurd hkn (by simp)
    · rw [Dd2 k hk'] at hkn
      obtain ⟨g0, hg0, hkg0⟩ := hI.fmComplete k n hkn
      by_cases hf' : n.freq = c.min_freq
      · rw [hf'] at hg0 ⊢
        rw [hgm0] at hg0
        injection hg0 with hg0
        rw [← hg0] at hkg0
        have hkgrest : k ∈ grest := by
          rcases List.mem_cons.1 hkg0 with he | he
          · exact absurd he hk'
          · exact he
        have hge : grest ≠ [] := fun he => by rw [he] at hkgrest; simp at hkgrest
        refine ⟨grest, ?_, hkgrest⟩
        rw [E1, if_neg hge]
      · refine ⟨g0, ?_, hkg0⟩
        rw [E2 _ hf']
        exact hg0
  have habscb : alookup key (adel hd c.data) = none := by
    rw [Dd2 key hkeyh]
    exact habs
  have hlencb : (((adel hd c.data).length : Int)) + 1 ≤ c.capacity := by
    have hlen2 := length_adel_of_mem (mem_keys_of_alookup hnh)
    have hsz := hI.sizeLe
    omega
  have hkg1cb : key ∉ (alookup 1
      (if grest = [] then adel c.min_freq (aset c.min_freq grest c.freq_map)
       else aset c.min_freq grest c.freq_map)).getD [] := by
    intro hmem
    cases hfg : alookup 1
        (if grest = [] then adel c.min_freq (aset c.min_freq grest c.freq_map)
         else aset c.min_freq grest c.freq_map) with
    | none => rw [hfg] at hmem; simp at hmem
    | some gg =>
      rw [hfg] at hmem
      simp only [Option.getD_some] at hmem
      obtain ⟨n, hn, _⟩ := hfmScb _ _ hfg key hmem
      rw [habscb] at hn
      exact absurd hn (by simp)
  have hg1cb : ((alookup 1
      (if grest = [] then adel c.min_freq (aset c.min_freq grest c.freq_map)
       else aset c.min_freq grest c.freq_map)).getD []) =
      (if 1 = c.min_freq then grest else (alookup 1 c.freq_map).getD []) := by
    by_cases h1m : (1 : Nat) = c.min_freq
    · rw [if_pos h1m, h1m, E1]
      by_cases hge : grest = []
      · rw [if_pos hge, hge]
        rfl
      · rw [if_neg hge]
        rfl
    · rw [if_neg h1m, E2 1 h1m]
  refine ⟨{ c with
      data := aset key { key := key, value := v, freq := 1 } (adel hd c.data)
      freq_map := aset 1
        (((alookup 1
            (if grest = [] then adel c.min_freq (aset c.min_freq grest c.freq_map)
             else aset c.min_freq grest c.freq_map)).getD []) ++ [key])
        (if grest = [] then adel c.min_freq (aset c.min_freq grest c.freq_map)
         else aset c.min_freq grest c.freq_map)
      min_freq := 1 }, hd, grest, nh, ?_, hgm0, hnh, hnhf, ?_, rfl, rfl, rfl, ?_, ?_⟩
  · simp only [set, if_neg hcap0, habs, if_pos hlen, hgm0, Option.getD_some,
      hadelF, if_neg hkg1cb]
  · exact @insert_inv { c with
        data := adel hd c.data
        freq_map :=
          (if grest = [] then adel c.min_freq (aset c.min_freq grest c.freq_map)
           else aset c.min_freq grest c.freq_map) } key v
      hI.capNonneg hndcb hkeyFcb hposFcb E3 hfmNecb hfmGNcb
      hfmScb hfmCcb habscb hlencb
  · rw [← hg1cb]
    exact alookup_aset_self _ _ _
  · intro x hx1
    rw [alookup_aset_ne _ _ hx1]
    by_cases hxm : x = c.min_freq
    · rw [if_pos hxm, hxm, E1]
    · rw [if_neg hxm, E2 x hxm]

/-- Calling `get` on an absent key returns Python `None` and leaves the state
untouched. -/
theorem get_miss {c : LFUCache} {key : Int} (habs : alookup key c.data = none) :
    get c key = some (none, c) := by
  simp only [get, habs]

/-- A live key does not belong to the group of another frequency. -/
theorem key_not_in_other_group {c : LFUCache} (hI : Inv c) {k : Int} {n : Node}
    (hk : alookup k c.data = some n) {f : Nat} (hf : f ≠ n.freq) :
    k ∉ (alookup f c.freq_map).getD [] := by
  intro hmem
  cases hfg : alookup f c.freq_map with
  | none => rw [hfg] at hmem; simp at hmem
  | some gg =>
    rw [hfg] at hmem
    simp only [Option.getD_some] at hmem
    obtain ⟨n', hn', hnf'⟩ := hI.fmSound _ _ hfg k hmem
    rw [hk] at hn'
    injection hn' with hn'
    rw [← hn'] at hnf'
    exact hf hnf'.symm

/-- A freshly constructed store satisfies the invariant when the capacity is
non-negative. -/
theorem init_inv {cap : Int} (hcap : 0 ≤ cap) : Inv (init cap) := by
  refine ⟨hcap, ?_, ?_, ?_, ?_, ?_, ?_, ?_, ?_, ?_, ?_, ?_⟩ <;>
    simp [init, alookup, hcap]

/-- Any single operation on an invariant state succeeds, preserves the
invariant and keeps the capacity. -/
theorem step_spec {c : LFUCache} (hI : Inv c) (op : Op) :
    ∃ c', step c op = some c' ∧ Inv c' ∧ c'.capacity = c.capacity := by
  cases op with
  | get k =>
    cases hk : alookup k c.data with
    | none =>
      refine ⟨c, ?_, hI, rfl⟩
      simp only [step, get_miss hk, Option.map_some']
    | some node =>
      obtain ⟨c', g, g', hget, _, _, hI', hcap, _⟩ := get_hit_spec hI hk
      refine ⟨c', ?_, hI', hcap⟩
      simp only [step, hget, Option.map_some']
  | set k v =>
    by_cases hcap0 : c.capacity = 0
    · exact ⟨c, by simp only [step, set, if_pos hcap0], hI, rfl⟩
    · cases hk : alookup k c.data with
      | some node =>
        obtain ⟨c', g, g', hset, _, _, hI', hcap, _⟩ :=
          set_existing_spec hI hcap0 hk
        exact ⟨c', hset, hI', hcap⟩
      | none =>
        by_cases hlen : c.capacity ≤ (c.data.length : Int)
        · obtain ⟨c', hd, grest, nh, hset, _, _, _, hI', hcap, _⟩ :=
            set_evict_spec hI hcap0 hk hlen
          exact ⟨c', hset, hI', hcap⟩
        · obtain ⟨c', hset, hI', hcap, _⟩ := set_noevict_spec hI hcap0 hk hlen
          exact ⟨c', hset, hI', hcap⟩

/-- Every state reachable from a store of non-negative capacity satisfies
the invariant, and construction fixes the capacity forever. -/
theorem reachable_inv {cap : Int} {c : LFUCache} (hcap : 0 ≤ cap)
    (hR : Reachable cap c) : Inv c ∧ c.capacity = cap := by
  induction hR with
  | init => exact ⟨init_inv hcap, rfl⟩
  | step op hR hstep ih =>
    obtain ⟨hI, hc⟩ := ih
    obtain ⟨c'', hstep', hI', hcap'⟩ := step_spec hI op
    rw [hstep'] at hstep
    injection hstep with hstep
    subst hstep
    exact ⟨hI', by rw [hcap', hc]⟩

/-- An operation that accesses no key leaves the state unchanged. -/
theorem step_accessed_none {c c' : LFUCache} {op : Op}
    (hstep : step c op = some c') (hacc : accessed c op = none) : c' = c := by
  cases op with
  | get k =>
    simp only [accessed] at hacc
    by_cases hk : (alookup k c.data).isSome
    · rw [if_pos hk] at hacc
      exact absurd hacc (by simp)
    · have hnone : alookup k c.data = none := Option.not_isSome_iff_eq_none.1 hk
      simp only [step, get_miss hnone, Option.map_some'] at hstep
      injection hstep with h
      exact h.symm
  | set k v =>
    simp only [accessed] at hacc
    by_cases h0 : c.capacity = 0
    · simp only [step, set, if_pos h0] at hstep
      injection hstep with h
      exact h.symm
    · rw [if_neg h0] at hacc
      exact absurd hacc (by simp)

/-! ### Recency: the groups are ordered by last access time -/

theorem laLt_aset {la : List (Int × Nat)} {t : Nat}
    (hlt : ∀ x tx, alookup x la = some tx → tx < t) (k : Int) :
    ∀ x tx, alookup x (aset k t la) = some tx → tx < t + 1 := by
  intro x tx hx
  by_cases hxk : x = k
  · subst hxk
    rw [alookup_aset_self] at hx
    injection hx with hx
    omega
  · rw [alookup_aset_ne _ _ hxk] at hx
    exact Nat.lt_succ_of_lt (hlt x tx hx)

theorem laLive_step {c c' : LFUCache} {la : List (Int × Nat)} {t : Nat} {k : Int}
    (hlive : ∀ x n, alookup x c.data = some n → (alookup x la).isSome = true)
    (hback : ∀ x n, x ≠ k → alookup x c'.data = some n →
      alookup x c.data = some n) :
    ∀ x n, alookup x c'.data = some n →
      (alookup x (aset k t la)).isSome = true := by
  intro x n hx
  by_cases hxk : x = k
  · subst hxk
    rw [alookup_aset_self]
    rfl
  · rw [alookup_aset_ne _ _ hxk]
    exact hlive x n (hback x n hxk hx)

theorem laOf_lt_of_live {c : LFUCache} {la : List (Int × Nat)} {t : Nat}
    (hlt : ∀ x tx, alookup x la = some tx → tx < t)
    (hlive : ∀ x n, alookup x c.data = some n → (alookup x la).isSome = true)
    {x : Int} {n : Node} (hx : alookup x c.data = some n) : laOf la x < t := by
  have hs := hlive x n hx
  rw [Option.isSome_iff_exists] at hs
  obtain ⟨tx, htx⟩ := hs
  rw [laOf, htx]
  simp only [Option.getD_some]
  exact hlt x tx htx

theorem pairwise_laOf_of_not_mem {la : List (Int × Nat)} {t : Nat} {k : Int}
    {g : List Int} (hknot : k ∉ g)
    (hp : g.Pairwise (fun a b => laOf la a < laOf la b)) :
    g.Pairwise (fun a b => laOf (aset k t la) a < laOf (aset k t la) b) := by
  refine List.Pairwise.imp_of_mem ?_ hp
  intro a b ha hb hab
  have hak : a ≠ k := fun he => hknot (he ▸ ha)
  have hbk : b ≠ k := fun he => hknot (he ▸ hb)
  rw [laOf, laOf, alookup_aset_ne _ _ hak, alookup_aset_ne _ _ hbk]
  exact hab

theorem pairwise_append_new {la : List (Int × Nat)} {t : Nat} {k : Int}
    {g : List Int} (hknot : k ∉ g)
    (hp : g.Pairwise (fun a b => laOf la a < laOf la b))
    (hlt : ∀ x, x ∈ g → laOf la x < t) :
    (g ++ [k]).Pairwise
      (fun a b => laOf (aset k t la) a < laOf (aset k t la) b) := by
  rw [List.pairwise_append]
  refine ⟨pairwise_laOf_of_not_mem hknot hp, List.pairwise_singleton _ _, ?_⟩
  intro a ha b hb
  rw [List.mem_singleton] at hb
  have hak : a ≠ k := fun he => hknot (he ▸ ha)
  rw [hb, laOf, laOf, alookup_aset_ne _ _ hak, alookup_aset_self]
  simp only [Option.getD_some]
  exact hlt a ha

theorem grpSorted_getD {c : LFUCache} {la : List (Int × Nat)} {t : Nat}
    (hTI : TInv c la t) (f : Nat) :
    ((alookup f c.freq_map).getD []).Pairwise
      (fun a b => laOf la a < laOf la b) := by
  cases hfg : alookup f c.freq_map with
  | none => simp
  | some gg =>
    simp only [Option.getD_some]
    exact hTI.grpSorted _ _ hfg

theorem laOf_getD_lt {c : LFUCache} {la : List (Int × Nat)} {t : Nat}
    (hI : Inv c) (hTI : TInv c la t) (f : Nat) :
    ∀ x, x ∈ (alookup f c.freq_map).getD [] → laOf la x < t := by
  intro x hx
  cases hfg : alookup f c.freq_map with
  | none => rw [hfg] at hx; simp at hx
  | some gg =>
    rw [hfg] at hx
    simp only [Option.getD_some] at hx
    obtain ⟨n, hn, _⟩ := hI.fmSound _ _ hfg x hx
    exact laOf_lt_of_live hTI.laLt hTI.laLive hn

/-- After promoting the entry at `key`, every frequency group is still
ordered by (the updated) last access times. -/
theorem grpSorted_promote {c c2 : LFUCache} {la : List (Int × Nat)} {t : Nat}
    {key : Int} {node : Node} {g g' : List Int}
    (hI : Inv c) (hTI : TInv c la t)
    (hk : alookup key c.data = some node)
    (hg : alookup node.freq c.freq_map = some g)
    (hgdel : ldel key g = some g')
    (hf : alookup node.freq c2.freq_map = (if g' = [] then none else some g'))
    (hf1 : alookup (node.freq + 1) c2.freq_map =
      some (((alookup (node.freq + 1) c.freq_map).getD []) ++ [key]))
    (hother : ∀ x, x ≠ node.freq → x ≠ node.freq + 1 →
      alookup x c2.freq_map = alookup x c.freq_map) :
    ∀ f' g'', alookup f' c2.freq_map = some g'' →
      g''.Pairwise
        (fun a b => laOf (aset key t la) a < laOf (aset key t la) b) := by
  intro f' g'' hlook
  by_cases hf1' : f' = node.freq + 1
  · subst hf1'
    rw [hf1] at hlook
    injection hlook with hlook
    rw [← hlook]
    refine pairwise_append_new
      (key_not_in_other_group hI hk (Nat.succ_ne_self node.freq)) ?_ ?_
    · exact grpSorted_getD hTI _
    · exact laOf_getD_lt hI hTI _
  · by_cases hf0' : f' = node.freq
    · subst hf0'
      rw [hf] at hlook
      by_cases hge : g' = []
      · rw [if_pos hge] at hlook
        exact absurd hlook (by simp)
      · rw [if_neg hge] at hlook
        injection hlook with hlook
        rw [← hlook]
        refine pairwise_laOf_of_not_mem
          (not_mem_ldel_self (hI.fmGroupNodup _ _ hg) hgdel) ?_
        exact List.Pairwise.sublist (ldel_sublist hgdel) (hTI.grpSorted _ _ hg)
    · rw [hother f' hf0' hf1'] at hlook
      refine pairwise_laOf_of_not_mem ?_ (hTI.grpSorted _ _ hlook)
      have hnm := key_not_in_other_group hI hk
        (show f' ≠ node.freq from hf0')
      rw [hlook] at hnm
      simpa using hnm

/-- After inserting a fresh `key` into group 1 (no eviction), every group is
still ordered by last access times. -/
theorem grpSorted_insert {c c2 : LFUCache} {la : List (Int × Nat)} {t : Nat}
    {key : Int}
    (hI : Inv c) (hTI : TInv c la t)
    (habs : alookup key c.data = none)
    (hf1 : alookup 1 c2.freq_map =
      some (((alookup 1 c.freq_map).getD []) ++ [key]))
    (hother : ∀ x, x ≠ 1 → alookup x c2.freq_map = alookup x c.freq_map) :
    ∀ f' g'', alookup f' c2.freq_map = some g'' →
      g''.Pairwise
        (fun a b => laOf (aset key t la) a < laOf (aset key t la) b) := by
  intro f' g'' hlook
  by_cases hf' : f' = 1
  · subst hf'
    rw [hf1] at hlook
    injection hlook with hlook
    rw [← hlook]
    refine pairwise_append_new (key_not_in_group hI.fmSound habs 1) ?_ ?_
    · exact grpSorted_getD hTI _
    · exact laOf_getD_lt hI hTI _
  · rw [hother f' hf'] at hlook
    refine pairwise_laOf_of_not_mem ?_ (hTI.grpSorted _ _ hlook)
    have hnm := key_not_in_group hI.fmSound habs f'
    rw [hlook] at hnm
    simpa using hnm

/-- After evicting the head of the minimum group and inserting a fresh
`key`, every group is still ordered by last access times. -/
theorem grpSorted_evict_insert {c c2 : LFUCache} {la : List (Int × Nat)}
    {t : Nat} {key hd : Int} {grest : List Int}
    (hI : Inv c) (hTI : TInv c la t)
    (habs : alookup key c.data = none)
    (hgm : alookup c.min_freq c.freq_map = some (hd :: grest))
    (hf1 : alookup 1 c2.freq_map =
      some ((if 1 = c.min_freq then grest
             else (alookup 1 c.freq_map).getD []) ++ [key]))
    (hother : ∀ x, x ≠ 1 → alookup x c2.freq_map =
      (if x = c.min_freq then (if grest = [] then none else some grest)
       else alookup x c.freq_map)) :
    ∀ f' g'', alookup f' c2.freq_map = some g'' →
      g''.Pairwise
        (fun a b => laOf (aset key t la) a < laOf (aset key t la) b) := by
  have hkgrest : key ∉ grest := by
    have hnm := key_not_in_group hI.fmSound habs c.min_freq
    rw [hgm] at hnm
    simp only [Option.getD_some] at hnm
    intro hmem
    exact hnm (List.mem_cons_of_mem hd hmem)
  have hpgrest : grest.Pairwise (fun a b => laOf la a < laOf la b) :=
    List.Pairwise.sublist (List.sublist_cons_self hd grest)
      (hTI.grpSorted _ _ hgm)
  have hltgrest : ∀ x, x ∈ grest → laOf la x < t := by
    intro x hx
    obtain ⟨n, hn, _⟩ := hI.fmSound _ _ hgm x (List.mem_cons_of_mem hd hx)
    exact laOf_lt_of_live hTI.laLt hTI.laLive hn
  intro f' g'' hlook
  by_cases hf' : f' = 1
  · subst hf'
    rw [hf1] at hlook
    injection hlook with hlook
    rw [← hlook]
    by_cases h1m : (1 : Nat) = c.min_freq
    · rw [if_pos h1m]
      exact pairwise_append_new hkgrest hpgrest hltgrest
    · rw [if_neg h1m]
      refine pairwise_append_new (key_not_in_group hI.fmSound habs 1) ?_ ?_
      · exact grpSorted_getD hTI _
      · exact laOf_getD_lt hI hTI _
  · rw [hother f' hf'] at hlook
    by_cases hfm : f' = c.min_freq
    · rw [if_pos hfm] at hlook
      by_cases hge : grest = []
      · rw [if_pos hge] at hlook
        exact absurd hlook (by simp)
      · rw [if_neg hge] at hlook
        injection hlook with hlook
        rw [← hlook]
        exact pairwise_laOf_of_not_mem hkgrest hpgrest
    · rw [if_neg hfm] at hlook
      refine pairwise_laOf_of_not_mem ?_ (hTI.grpSorted _ _ hlook)
      have hnm := key_not_in_group hI.fmSound habs f'
      rw [hlook] at hnm
      simpa using hnm

/-- One operation preserves the recency invariant. -/
theorem tinv_step {c c' : LFUCache} {la : List (Int × Nat)} {t : Nat}
    {op : Op} (hI : Inv c) (hTI : TInv c la t)
    (hstep : step c op = some c') : TInv c' (updLA c op t la) (t + 1) := by
  cases hacc : accessed c op with
  | none =>
    have hcc : c' = c := step_accessed_none hstep hacc
    rw [hcc]
    have hla : updLA c op t la = la := by
      simp only [updLA, hacc]
    rw [hla]
    exact ⟨fun x tx hx => Nat.lt_succ_of_lt (hTI.laLt x tx hx),
      hTI.laLive, hTI.grpSorted⟩
  | some k =>
    have hla : updLA c op t la = aset k t la := by
      simp only [updLA, hacc]
    rw [hla]
    cases op with
    | get key =>
      cases hk : alookup key c.data with
      | none => simp [accessed, hk] at hacc
      | some node =>
        simp only [accessed, hk, Option.isSome_some, if_true] at hacc
        injection hacc with hacc
        subst hacc
        obtain ⟨c2, g, g', hget, hg, hgdel, hI2, hcap2, hdata, hf, hf1,
          hother, hmin⟩ := get_hit_spec hI hk
        have hcc : c' = c2 := by
          simp only [step, hget, Option.map_some'] at hstep
          injection hstep with h3
          exact h3.symm
        rw [hcc]
        refine ⟨laLt_aset hTI.laLt key, ?_, ?_⟩
        · refine laLive_step hTI.laLive ?_
          intro x n hxk hx
          rw [hdata, alookup_aset_ne _ _ hxk] at hx
          exact hx
        · exact grpSorted_promote hI hTI hk hg hgdel hf hf1 hother
    | set key v =>
      have h0 : ¬ c.capacity = 0 := by
        intro h0
        simp [accessed, h0] at hacc
      have hkk : key = k := by
        simp only [accessed, if_neg h0, Option.some.injEq] at hacc
        exact hacc
      subst hkk
      simp only [step] at hstep
      cases hk : alookup key c.data with
      | some node =>
        obtain ⟨c2, g, g', hset, hg, hgdel, hI2, hcap2, hdata, hf, hf1,
          hother, hmin⟩ := set_existing_spec hI h0 hk
        have hcc : c' = c2 := by
          rw [hset] at hstep
          injection hstep with h3
          exact h3.symm
        rw [hcc]
        refine ⟨laLt_aset hTI.laLt key, ?_, ?_⟩
        · refine laLive_step hTI.laLive ?_
          intro x n hxk hx
          rw [hdata, alookup_aset_ne _ _ hxk] at hx
          exact hx
        · exact grpSorted_promote hI hTI hk hg hgdel hf hf1 hother
      | none =>
        by_cases hlen : c.capacity ≤ (c.data.length : Int)
        · obtain ⟨c2, hd, grest, nh, hset, hgm, hnh, hnhf, hI2, hcap2,
            hdata, hmin2, hf1, hother⟩ := set_evict_spec hI h0 hk hlen
          have hcc : c' = c2 := by
            rw [hset] at hstep
            injection hstep with h3
            exact h3.symm
          rw [hcc]
          refine ⟨laLt_aset hTI.laLt key, ?_, ?_⟩
          · refine laLive_step hTI.laLive ?_
            intro x n hxk hx
            rw [hdata, alookup_aset_ne _ _ hxk] at hx
            by_cases hxh : x = hd
            · rw [hxh, alookup_adel_self hI.dataNodup] at hx
              exact absurd hx (by simp)
            · rw [alookup_adel_ne _ hxh] at hx
              exact hx
          · exact grpSorted_evict_insert hI hTI hk hgm hf1 hother
        · obtain ⟨c2, hset, hI2, hcap2, hdata, hf1, hother, hmin2⟩ :=
            set_noevict_spec hI h0 hk hlen
          have hcc : c' = c2 := by
            rw [hset] at hstep
            injection hstep with h3
            exact h3.symm
          rw [hcc]
          refine ⟨laLt_aset hTI.laLt key, ?_, ?_⟩
          · refine laLive_step hTI.laLive ?_
            intro x n hxk hx
            rw [hdata, alookup_aset_ne _ _ hxk] at hx
            exact hx
          · exact grpSorted_insert hI hTI hk hf1 hother

/-- Along instrumented reachability (non-negative capacity) the structural
invariant holds and every frequency group is ordered by last access time,
oldest first. -/
theorem treach_tinv {cap : Int} {c : LFUCache} {la : List (Int × Nat)}
    {t : Nat} (hcap : 0 ≤ cap) (hT : TReach cap c la t) :
    Inv c ∧ TInv c la t := by
  induction hT with
  | init =>
    refine ⟨init_inv hcap, ?_, ?_, ?_⟩
    · intro k tk hk
      simp [alookup] at hk
    · intro k n hk
      simp [init, alookup] at hk
    · intro f g hf
      simp [init, alookup] at hf
  | step op hTA hstep ih =>
    obtain ⟨hI, hTI⟩ := ih
    refine ⟨?_, tinv_step hI hTI hstep⟩
    obtain ⟨c2, hstep', hI2, _⟩ := step_spec hI op
    rw [hstep'] at hstep
    injection hstep with h3
    exact h3 ▸ hI2

/-- Forgetting the instrumentation: instrumented reachability implies plain
reachability. -/
theorem treach_reachable {cap : Int} {c : LFUCache} {la : List (Int × Nat)}
    {t : Nat} (hT : TReach cap c la t) : Reachable cap c := by
  induction hT with
  | init => exact Reachable.init
  | step op hTA hstep ih => exact Reachable.step op ih hstep

/-- C1, the claim as stated: on the capacity-2 scenario the `get` outputs
would be `1, None, 3` and then — with `set(4,4)` evicting key 3 — `1, None,
4`.  This is false: after `get(3)` keys 1 and 3 are tied at frequency 2 and
key 1 is the least recently accessed, so `set(4,4)` evicts key 1, not key 3:
key 3 is still present after `set(4,4)` and the final outputs are
`None, 3, 4`. -/
theorem C1_counterexample :
    ¬ ((runOuts (init 2) scenarioOps).map Prod.snd =
        some [some 1, none, some 3, some 1, none, some 4]) ∧
    (run (init 2) (scenarioOps.take 7)).map
        (fun c => ((alookup 3 c.data).isSome, (alookup 1 c.data).isSome)) =
      some (true, false) := by
  decide

/-- C1 (amended): on the capacity-2 scenario the `get` outputs are
`1, None, 3, None, 3, 4`, and `set(4,4)` evicts key 1 (keys 1 and 3 are tied
at frequency 2, key 1 least recently accessed) while keys 3 and 4 remain. -/
theorem C1_scenario :
    (runOuts (init 2) scenarioOps).map Prod.snd =
      some [some 1, none, some 3, none, some 3, some 4] ∧
    (run (init 2) (scenarioOps.take 7)).map
        (fun c => ((alookup 1 c.data).isSome, (alookup 3 c.data).isSome,
                   (alookup 4 c.data).isSome)) =
      some (false, true, true) := by
  decide

/-- C2: `LFUCache.__init__` performs no validation at all: constructing with
the negative capacity `-1` signals no error and produces a store that answers
`get` normally; the missing check surfaces only later, as an uncaught
`KeyError` (modelled by `none`) on the first `set` of an absent key. -/
theorem C2_no_construction_check :
    init (-1) = { capacity := -1, data := [], freq_map := [], min_freq := 0 } ∧
    get (init (-1)) 0 = some (none, init (-1)) ∧
    set (init (-1)) 0 0 = none := by
  decide


/-- C3 (counterexample to the claim as stated): the constructor accepts the
negative capacity `-1` (the claim quantifies over every capacity the
constructor accepts, negative integers included), and on such a store
`set(1, 1)` raises an uncaught `KeyError` — `popitem(last=False)` on the
empty `OrderedDict` `freq_map[0]` — modelled by `none`. -/
theorem C3_counterexample : set (init (-1)) 1 1 = none := by
  decide

/-- C3 (amended): on every store constructed with a NON-NEGATIVE capacity,
in every reachable state, `set` returns normally for all arguments; zero
capacity, key absence and overflow are defined branches, never failures. -/
theorem C3_set_total_nonneg {cap : Int} {c : LFUCache} (hcap : 0 ≤ cap)
    (hR : Reachable cap c) (k v : Int) : ∃ c', set c k v = some c' := by
  obtain ⟨hI, _⟩ := reachable_inv hcap hR
  obtain ⟨c', hstep, _⟩ := step_spec hI (Op.set k v)
  exact ⟨c', hstep⟩

theorem C3_witness : ∃ c', set (init 2) 5 7 = some c' :=
  C3_set_total_nonneg (by decide) Reachable.init 5 7

/-- C4: in every reachable state of a store with non-negative capacity, when
the store is non-empty, `min_freq` is exactly the minimum of the `freq`
values of all live entries — a lower bound that is attained. -/
theorem C4_min_freq_exact {cap : Int} {c : LFUCache} (hcap : 0 ≤ cap)
    (hR : Reachable cap c) (hne : c.data ≠ []) :
    (∀ k n, alookup k c.data = some n → c.min_freq ≤ n.freq) ∧
    (∃ k n, alookup k c.data = some n ∧ n.freq = c.min_freq) := by
  obtain ⟨hI, _⟩ := reachable_inv hcap hR
  exact ⟨hI.minLe, hI.minMem hne⟩

theorem C4_witness :
    (∀ k n, alookup k
        (⟨2, [(1, ⟨1, 1, 1⟩)], [(1, [1])], 1⟩ : LFUCache).data = some n →
        (⟨2, [(1, ⟨1, 1, 1⟩)], [(1, [1])], 1⟩ : LFUCache).min_freq ≤ n.freq) ∧
    (∃ k n, alookup k
        (⟨2, [(1, ⟨1, 1, 1⟩)], [(1, [1])], 1⟩ : LFUCache).data = some n ∧
        n.freq = (⟨2, [(1, ⟨1, 1, 1⟩)], [(1, [1])], 1⟩ : LFUCache).min_freq) :=
  @C4_min_freq_exact 2 ⟨2, [(1, ⟨1, 1, 1⟩)], [(1, [1])], 1⟩ (by decide)
    (Reachable.step (Op.set 1 1) Reachable.init
      (show step (init 2) (Op.set 1 1) =
          some ⟨2, [(1, ⟨1, 1, 1⟩)], [(1, [1])], 1⟩ by decide))
    (by decide)

/-- C5: in every reachable full state (capacity > 0), `set` on an absent key
evicts an entry whose `freq` is ≤ the `freq` of every live entry, and among
the entries sharing that minimum frequency the victim is the least recently
accessed one — accesses being insertion, `get` hits, and `set` on an
existing key, as recorded by the instrumented last-access table `la`. -/
theorem C5_eviction_policy {cap : Int} {c c' : LFUCache}
    {la : List (Int × Nat)} {t : Nat} {key v : Int}
    (hcap : 0 < cap) (hT : TReach cap c la t)
    (hfull : (c.data.length : Int) = c.capacity)
    (habs : alookup key c.data = none)
    (hset : set c key v = some c') :
    ∃ victim nv, alookup victim c.data = some nv ∧
      alookup victim c'.data = none ∧
      (∀ k n, alookup k c.data = some n → nv.freq ≤ n.freq) ∧
      (∀ k n, alookup k c.data = some n → k ≠ victim → n.freq = nv.freq →
        laOf la victim < laOf la k) := by
  obtain ⟨hI, hTI⟩ := treach_tinv (le_of_lt hcap) hT
  have hc : c.capacity = cap :=
    (reachable_inv (le_of_lt hcap) (treach_reachable hT)).2
  have hcap0 : ¬ c.capacity = 0 := by omega
  have hlen : c.capacity ≤ (c.data.length : Int) := le_of_eq hfull.symm
  obtain ⟨c2, hd, grest, nh, hset2, hgm, hnh, hnhf, hI2, _, hdata, _, _, _⟩ :=
    set_evict_spec hI hcap0 habs hlen
  rw [hset2] at hset
  injection hset with hset
  rw [← hset]
  refine ⟨hd, nh, hnh, ?_, ?_, ?_⟩
  · have hhk : hd ≠ key := by
      intro he
      rw [he, habs] at hnh
      exact absurd hnh (by simp)
    rw [hdata, alookup_aset_ne _ _ hhk, alookup_adel_self hI.dataNodup]
  · intro k n hkn
    rw [hnhf]
    exact hI.minLe k n hkn
  · intro k n hkn hkhd hfeq
    obtain ⟨g0, hg0, hkg0⟩ := hI.fmComplete k n hkn
    rw [hfeq, hnhf, hgm] at hg0
    injection hg0 with hg0
    rw [← hg0] at hkg0
    have hkgrest : k ∈ grest := by
      rcases List.mem_cons.1 hkg0 with he | he
      · exact absurd he hkhd
      · exact he
    have hp := hTI.grpSorted _ _ hgm
    rw [List.pairwise_cons] at hp
    exact hp.1 k hkgrest

theorem C5_witness :
    ∃ victim nv,
      alookup victim
        (⟨2, [(1, ⟨1, 1, 1⟩), (2, ⟨2, 2, 1⟩)], [(1, [1, 2])], 1⟩
          : LFUCache).data = some nv ∧
      alookup victim
        (⟨2, [(2, ⟨2, 2, 1⟩), (3, ⟨3, 3, 1⟩)], [(1, [2, 3])], 1⟩
          : LFUCache).data = none ∧
      (∀ k n, alookup k
          (⟨2, [(1, ⟨1, 1, 1⟩), (2, ⟨2, 2, 1⟩)], [(1, [1, 2])], 1⟩
            : LFUCache).data = some n → nv.freq ≤ n.freq) ∧
      (∀ k n, alookup k
          (⟨2, [(1, ⟨1, 1, 1⟩), (2, ⟨2, 2, 1⟩)], [(1, [1, 2])], 1⟩
            : LFUCache).data = some n → k ≠ victim → n.freq = nv.freq →
        laOf [(1, 0), (2, 1)] victim < laOf [(1, 0), (2, 1)] k) :=
  @C5_eviction_policy 2
    ⟨2, [(1, ⟨1, 1, 1⟩), (2, ⟨2, 2, 1⟩)], [(1, [1, 2])], 1⟩
    ⟨2, [(2, ⟨2, 2, 1⟩), (3, ⟨3, 3, 1⟩)], [(1, [2, 3])], 1⟩
    [(1, 0), (2, 1)] 2 3 3
    (by decide)
    (TReach.step (Op.set 2 2)
      (TReach.step (Op.set 1 1) TReach.init
        (show step (init 2) (Op.set 1 1) =
            some ⟨2, [(1, ⟨1, 1, 1⟩)], [(1, [1])], 1⟩ by decide))
      (show step (⟨2, [(1, ⟨1, 1, 1⟩)], [(1, [1])], 1⟩ : LFUCache)
          (Op.set 2 2) =
          some ⟨2, [(1, ⟨1, 1, 1⟩), (2, ⟨2, 2, 1⟩)], [(1, [1, 2])], 1⟩
        by decide))
    (by decide) (by decide) (by decide)

/-- C6: in every reachable state of a store with non-negative capacity, the
key index never holds more entries than the capacity, and with capacity 0 it
is always empty. -/
theorem C6_size_bound {cap : Int} {c : LFUCache} (hcap : 0 ≤ cap)
    (hR : Reachable cap c) :
    (c.data.length : Int) ≤ c.capacity ∧ (c.capacity = 0 → c.data = []) := by
  obtain ⟨hI, _⟩ := reachable_inv hcap hR
  refine ⟨hI.sizeLe, ?_⟩
  intro h0
  have hsz := hI.sizeLe
  rw [h0] at hsz
  have hlen : c.data.length = 0 := by omega
  exact List.length_eq_zero.1 hlen

theorem C6_witness :
    (((⟨2, [(1, ⟨1, 1, 1⟩)], [(1, [1])], 1⟩ : LFUCache).data.length : Int) ≤
      (⟨2, [(1, ⟨1, 1, 1⟩)], [(1, [1])], 1⟩ : LFUCache).capacity) ∧
    ((⟨2, [(1, ⟨1, 1, 1⟩)], [(1, [1])], 1⟩ : LFUCache).capacity = 0 →
      (⟨2, [(1, ⟨1, 1, 1⟩)], [(1, [1])], 1⟩ : LFUCache).data = []) :=
  @C6_size_bound 2 ⟨2, [(1, ⟨1, 1, 1⟩)], [(1, [1])], 1⟩ (by decide)
    (Reachable.step (Op.set 1 1) Reachable.init
      (show step (init 2) (Op.set 1 1) =
          some ⟨2, [(1, ⟨1, 1, 1⟩)], [(1, [1])], 1⟩ by decide))

/-- C7: across one operation on a reachable state, an entry live afterwards
has `freq = 1` if it was just inserted, `freq` incremented by exactly 1 if
the operation was a `get` hit or a `set` naming its key, and `freq`
unchanged otherwise — so `freq` never decreases or resets during an entry's
lifetime. -/
theorem C7_freq_dynamics {cap : Int} {c c' : LFUCache} {op : Op}
    (hcap : 0 ≤ cap) (hR : Reachable cap c) (hstep : step c op = some c') :
    ∀ k n', alookup k c'.data = some n' →
      (match alookup k c.data with
       | none => n'.freq = 1
       | some n => n'.freq = (if opTouches op k then n.freq + 1 else n.freq)) := by
  obtain ⟨hI, _⟩ := reachable_inv hcap hR
  intro k n' hk'
  cases op with
  | get key =>
    cases hk0 : alookup key c.data with
    | none =>
      have hcc : c' = c := by
        simp only [step, get_miss hk0, Option.map_some'] at hstep
        injection hstep with h3
        exact h3.symm
      rw [hcc] at hk'
      by_cases hkk : k = key
      · subst hkk
        rw [hk0] at hk'
        exact absurd hk' (by simp)
      · have hne : key ≠ k := fun he => hkk he.symm
        simp only [hk']
        simp [opTouches, hne]
    | some node =>
      obtain ⟨c2, g, g', hget, _, _, _, _, hdata, _⟩ := get_hit_spec hI hk0
      have hcc : c' = c2 := by
        simp only [step, hget, Option.map_some'] at hstep
        injection hstep with h3
        exact h3.symm
      rw [hcc, hdata] at hk'
      by_cases hkk : k = key
      · subst hkk
        rw [alookup_aset_self] at hk'
        injection hk' with hk'
        simp only [hk0]
        rw [← hk']
        simp [opTouches]
      · rw [alookup_aset_ne _ _ hkk] at hk'
        have hne : key ≠ k := fun he => hkk he.symm
        simp only [hk']
        simp [opTouches, hne]
  | set key v =>
    by_cases h0 : c.capacity = 0
    · have hcc : c' = c := by
        simp only [step, set, if_pos h0] at hstep
        injection hstep with h3
        exact h3.symm
      rw [hcc] at hk'
      have hempty : c.data = [] := by
        have hsz := hI.sizeLe
        rw [h0] at hsz
        have hlen : c.data.length = 0 := by omega
        exact List.length_eq_zero.1 hlen
      rw [hempty] at hk'
      simp [alookup] at hk'
    · simp only [step] at hstep
      cases hk0 : alookup key c.data with
      | some node =>
        obtain ⟨c2, g, g', hset, _, _, _, _, hdata, _⟩ :=
          set_existing_spec hI h0 hk0
        have hcc : c' = c2 := by
          rw [hset] at hstep
          injection hstep with h3
          exact h3.symm
        rw [hcc, hdata] at hk'
        by_cases hkk : k = key
        · subst hkk
          rw [alookup_aset_self] at hk'
          injection hk' with hk'
          simp only [hk0]
          rw [← hk']
          simp [opTouches]
        · rw [alookup_aset_ne _ _ hkk] at hk'
          have hne : key ≠ k := fun he => hkk he.symm
          simp only [hk']
          simp [opTouches, hne]
      | none =>
        by_cases hlen : c.capacity ≤ (c.data.length : Int)
        · obtain ⟨c2, hd, grest, nh, hset, hgm, hnh, hnhf, hI2, hcap2,
            hdata, hmin2, hf1, hother⟩ := set_evict_spec hI h0 hk0 hlen
          have hcc : c' = c2 := by
            rw [hset] at hstep
            injection hstep with h3
            exact h3.symm
          rw [hcc, hdata] at hk'
          by_cases hkk : k = key
          · subst hkk
            rw [alookup_aset_self] at hk'
            injection hk' with hk'
            simp only [hk0]
            rw [← hk']
          · rw [alookup_aset_ne _ _ hkk] at hk'
            by_cases hkh : k = hd
            · rw [hkh, alookup_adel_self hI.dataNodup] at hk'
              exact absurd hk' (by simp)
            · rw [alookup_adel_ne _ hkh] at hk'
              have hne : key ≠ k := fun he => hkk he.symm
              simp only [hk']
              simp [opTouches, hne]
        · obtain ⟨c2, hset, hI2, hcap2, hdata, hf1, hother, hmin2⟩ :=
            set_noevict_spec hI h0 hk0 hlen
          have hcc : c' = c2 := by
            rw [hset] at hstep
            injection hstep with h3
            exact h3.symm
          rw [hcc, hdata] at hk'
          by_cases hkk : k = key
          · subst hkk
            rw [alookup_aset_self] at hk'
            injection hk' with hk'
            simp only [hk0]
            rw [← hk']
          · rw [alookup_aset_ne _ _ hkk] at hk'
            have hne : key ≠ k := fun he => hkk he.symm
            simp only [hk']
            simp [opTouches, hne]

theorem C7_witness :
    (⟨1, 1, 2⟩ : Node).freq =
      (if opTouches (Op.get 1) 1 then (⟨1, 1, 1⟩ : Node).freq + 1
       else (⟨1, 1, 1⟩ : Node).freq) :=
  @C7_freq_dynamics 2 ⟨2, [(1, ⟨1, 1, 1⟩)], [(1, [1])], 1⟩
    ⟨2, [(1, ⟨1, 1, 2⟩)], [(2, [1])], 2⟩ (Op.get 1)
    (by decide)
    (Reachable.step (Op.set 1 1) Reachable.init
      (show step (init 2) (Op.set 1 1) =
          some ⟨2, [(1, ⟨1, 1, 1⟩)], [(1, [1])], 1⟩ by decide))
    (by decide) 1 ⟨1, 1, 2⟩ (by decide)

/-- C8: in every reachable state of a store with positive capacity,
`set(k, v)` immediately followed by `get(k)` returns `v`, and the `get`
leaves the entry's `freq` exactly one above its value just after the
`set`. -/
theorem C8_set_get_roundtrip {cap : Int} {c c1 : LFUCache} {k v : Int}
    (hcap : 0 < cap) (hR : Reachable cap c) (hset : set c k v = some c1) :
    ∃ n1 c2, alookup k c1.data = some n1 ∧ n1.value = v ∧
      get c1 k = some (some v, c2) ∧
      ∃ n2, alookup k c2.data = some n2 ∧ n2.freq = n1.freq + 1 := by
  obtain ⟨hI, hc⟩ := reachable_inv (le_of_lt hcap) hR
  have hcap0 : ¬ c.capacity = 0 := by omega
  have hmain : ∃ n1, alookup k c1.data = some n1 ∧ n1.value = v ∧ Inv c1 := by
    cases hk0 : alookup k c.data with
    | some node =>
      obtain ⟨c1', g, g', hset', _, _, hI1, _, hdata, _⟩ :=
        set_existing_spec hI hcap0 hk0
      rw [hset'] at hset
      injection hset with hset
      rw [← hset]
      refine ⟨{ node with value := v, freq := node.freq + 1 }, ?_, rfl, hI1⟩
      rw [hdata]
      exact alookup_aset_self _ _ _
    | none =>
      by_cases hlen : c.capacity ≤ (c.data.length : Int)
      · obtain ⟨c1', hd, grest, nh, hset', _, _, _, hI1, _, hdata, _⟩ :=
          set_evict_spec hI hcap0 hk0 hlen
        rw [hset'] at hset
        injection hset with hset
        rw [← hset]
        refine ⟨⟨k, v, 1⟩, ?_, rfl, hI1⟩
        rw [hdata]
        exact alookup_aset_self _ _ _
      · obtain ⟨c1', hset', hI1, _, hdata, _⟩ :=
          set_noevict_spec hI hcap0 hk0 hlen
        rw [hset'] at hset
        injection hset with hset
        rw [← hset]
        refine ⟨⟨k, v, 1⟩, ?_, rfl, hI1⟩
        rw [hdata]
        exact alookup_aset_self _ _ _
  obtain ⟨n1, hn1, hval, hI1⟩ := hmain
  obtain ⟨c2, g, g', hget, _, _, _, _, hdata2, _⟩ := get_hit_spec hI1 hn1
  refine ⟨n1, c2, hn1, hval, ?_, { n1 with freq := n1.freq + 1 }, ?_, rfl⟩
  · rw [hget, hval]
  · rw [hdata2]
    exact alookup_aset_self _ _ _

theorem C8_witness :
    ∃ n1 c2, alookup 5
        (⟨1, [(5, ⟨5, 7, 1⟩)], [(1, [5])], 1⟩ : LFUCache).data = some n1 ∧
      n1.value = 7 ∧
      get (⟨1, [(5, ⟨5, 7, 1⟩)], [(1, [5])], 1⟩ : LFUCache) 5 =
        some (some 7, c2) ∧
      ∃ n2, alookup 5 c2.data = some n2 ∧ n2.freq = n1.freq + 1 :=
  @C8_set_get_roundtrip 1 (init 1) ⟨1, [(5, ⟨5, 7, 1⟩)], [(1, [5])], 1⟩ 5 7
    (by decide) Reachable.init (by decide)

/-- C9: `get` on a key absent from the key index returns the not-found
result and leaves the whole state unchanged; iterating it any number of
times still leaves the state unchanged. -/
theorem C9_get_missing_noop {c : LFUCache} {k : Int}
    (habs : alookup k c.data = none) :
    get c k = some (none, c) ∧
    (∀ m : Nat, run c (List.replicate m (Op.get k)) = some c) := by
  refine ⟨get_miss habs, ?_⟩
  intro m
  induction m with
  | zero => rfl
  | succ m ih =>
    rw [List.replicate_succ]
    show (step c (Op.get k)).bind
      (fun c' => run c' (List.replicate m (Op.get k))) = some c
    rw [show step c (Op.get k) = some c by
      simp only [step, get_miss habs, Option.map_some']]
    rw [Option.some_bind]
    exact ih

theorem C9_witness :
    get (⟨2, [(1, ⟨1, 1, 1⟩)], [(1, [1])], 1⟩ : LFUCache) 9 =
      some (none, ⟨2, [(1, ⟨1, 1, 1⟩)], [(1, [1])], 1⟩) ∧
    (∀ m : Nat, run (⟨2, [(1, ⟨1, 1, 1⟩)], [(1, [1])], 1⟩ : LFUCache)
      (List.replicate m (Op.get 9)) =
      some ⟨2, [(1, ⟨1, 1, 1⟩)], [(1, [1])], 1⟩) :=
  C9_get_missing_noop (by decide)

/-- C10: one operation on a reachable state removes at most one entry — any
key live before and dead after is the single victim, which exists only when
the operation is a `set` on an absent key at full capacity — and every live
entry whose key the operation does not name and that is not that victim
keeps its presence, value and `freq` (its whole stored node) unchanged. -/
theorem C10_frame {cap : Int} {c c' : LFUCache} {op : Op}
    (hcap : 0 ≤ cap) (hR : Reachable cap c) (hstep : step c op = some c') :
    ∃ victim : Option Int,
      (∀ k', opTouches op k' = false → victim ≠ some k' →
        alookup k' c'.data = alookup k' c.data) ∧
      (∀ k', victim = some k' → (alookup k' c.data).isSome = true ∧
        alookup k' c'.data = none) ∧
      (victim = none ∨ ∃ kk vv, op = Op.set kk vv ∧
        alookup kk c.data = none ∧ (c.data.length : Int) = c.capacity) ∧
      (∀ k', (alookup k' c.data).isSome = true → alookup k' c'.data = none →
        victim = some k') := by
  obtain ⟨hI, _⟩ := reachable_inv hcap hR
  cases op with
  | get key =>
    cases hk0 : alookup key c.data with
    | none =>
      have hcc : c' = c := by
        simp only [step, get_miss hk0, Option.map_some'] at hstep
        injection hstep with h3
        exact h3.symm
      rw [hcc]
      refine ⟨none, fun k' _ _ => rfl, by simp, Or.inl rfl, ?_⟩
      intro k' hs hn
      rw [hn] at hs
      exact absurd hs (by simp)
    | some node =>
      obtain ⟨c2, g, g', hget, _, _, _, _, hdata, _⟩ := get_hit_spec hI hk0
      have hcc : c' = c2 := by
        simp only [step, hget, Option.map_some'] at hstep
        injection hstep with h3
        exact h3.symm
      rw [hcc]
      refine ⟨none, ?_, by simp, Or.inl rfl, ?_⟩
      · intro k' ht _
        rw [hdata]
        refine alookup_aset_ne _ _ ?_
        simp only [opTouches, beq_eq_false_iff_ne, ne_eq] at ht
        exact fun he => ht he.symm
      · intro k' hs hn
        by_cases hk' : k' = key
        · rw [hk', hdata, alookup_aset_self] at hn
          exact absurd hn (by simp)
        · rw [hdata, alookup_aset_ne _ _ hk'] at hn
          rw [hn] at hs
          exact absurd hs (by simp)
  | set key v =>
    by_cases h0 : c.capacity = 0
    · have hcc : c' = c := by
        simp only [step, set, if_pos h0] at hstep
        injection hstep with h3
        exact h3.symm
      rw [hcc]
      refine ⟨none, fun k' _ _ => rfl, by simp, Or.inl rfl, ?_⟩
      intro k' hs hn
      rw [hn] at hs
      exact absurd hs (by simp)
    · simp only [step] at hstep
      cases hk0 : alookup key c.data with
      | some node =>
        obtain ⟨c2, g, g', hset, _, _, _, _, hdata, _⟩ :=
          set_existing_spec hI h0 hk0
        have hcc : c' = c2 := by
          rw [hset] at hstep
          injection hstep with h3
          exact h3.symm
        rw [hcc]
        refine ⟨none, ?_, by simp, Or.inl rfl, ?_⟩
        · intro k' ht _
          rw [hdata]
          refine alookup_aset_ne _ _ ?_
          simp only [opTouches, beq_eq_false_iff_ne, ne_eq] at ht
          exact fun he => ht he.symm
        · intro k' hs hn
          by_cases hk' : k' = key
          · rw [hk', hdata, alookup_aset_self] at hn
            exact absurd hn (by simp)
          · rw [hdata, alookup_aset_ne _ _ hk'] at hn
            rw [hn] at hs
            exact absurd hs (by simp)
      | none =>
        by_cases hlen : c.capacity ≤ (c.data.length : Int)
        · obtain ⟨c2, hd, grest, nh, hset, hgm, hnh, hnhf, hI2, hcap2,
            hdata, hmin2, hf1, hother⟩ := set_evict_spec hI h0 hk0 hlen
          have hcc : c' = c2 := by
            rw [hset] at hstep
            injection hstep with h3
            exact h3.symm
          rw [hcc]
          refine ⟨some hd, ?_, ?_, ?_, ?_⟩
          · intro k' ht hvic
            have hk'hd : k' ≠ hd := by
              intro he
              exact hvic (by rw [he])
            rw [hdata]
            have hk'key : k' ≠ key := by
              simp only [opTouches, beq_eq_false_iff_ne, ne_eq] at ht
              exact fun he => ht he.symm
            rw [alookup_aset_ne _ _ hk'key, alookup_adel_ne _ hk'hd]
          · intro k' hvic
            injection hvic with hvic
            rw [← hvic]
            constructor
            · rw [hnh]
              rfl
            · have hhk : hd ≠ key := by
                intro he
                rw [he, hk0] at hnh
                exact absurd hnh (by simp)
              rw [hdata, alookup_aset_ne _ _ hhk,
                alookup_adel_self hI.dataNodup]
          · refine Or.inr ⟨key, v, rfl, hk0, ?_⟩
            have hsz := hI.sizeLe
            omega
          · intro k' hs hn
            by_cases hk' : k' = key
            · rw [hk', hdata, alookup_aset_self] at hn
              exact absurd hn (by simp)
            · rw [hdata, alookup_aset_ne _ _ hk'] at hn
              by_cases hkh : k' = hd
              · rw [hkh]
              · rw [alookup_adel_ne _ hkh] at hn
                rw [hn] at hs
                exact absurd hs (by simp)
        · obtain ⟨c2, hset, hI2, hcap2, hdata, hf1, hother, hmin2⟩ :=
            set_noevict_spec hI h0 hk0 hlen
          have hcc : c' = c2 := by
            rw [hset] at hstep
            injection hstep with h3
            exact h3.symm
          rw [hcc]
          refine ⟨none, ?_, by simp, Or.inl rfl, ?_⟩
          · intro k' ht _
            rw [hdata]
            refine alookup_aset_ne _ _ ?_
            simp only [opTouches, beq_eq_false_iff_ne, ne_eq] at ht
            exact fun he => ht he.symm
          · intro k' hs hn
            by_cases hk' : k' = key
            · rw [hk', hdata, alookup_aset_self] at hn
              exact absurd hn (by simp)
            · rw [hdata, alookup_aset_ne _ _ hk'] at hn
              rw [hn] at hs
              exact absurd hs (by simp)

theorem C10_witness :
    ∃ victim : Option Int,
      (∀ k', opTouches (Op.set 3 3) k' = false → victim ≠ some k' →
        alookup k'
          (⟨2, [(2, ⟨2, 2, 1⟩), (3, ⟨3, 3, 1⟩)], [(1, [2, 3])], 1⟩
            : LFUCache).data =
        alookup k'
          (⟨2, [(1, ⟨1, 1, 1⟩), (2, ⟨2, 2, 1⟩)], [(1, [1, 2])], 1⟩
            : LFUCache).data) ∧
      (∀ k', victim = some k' →
        (alookup k'
          (⟨2, [(1, ⟨1, 1, 1⟩), (2, ⟨2, 2, 1⟩)], [(1, [1, 2])], 1⟩
            : LFUCache).data).isSome = true ∧
        alookup k'
          (⟨2, [(2, ⟨2, 2, 1⟩), (3, ⟨3, 3, 1⟩)], [(1, [2, 3])], 1⟩
            : LFUCache).data = none) ∧
      (victim = none ∨ ∃ kk vv, Op.set 3 3 = Op.set kk vv ∧
        alookup kk
          (⟨2, [(1, ⟨1, 1, 1⟩), (2, ⟨2, 2, 1⟩)], [(1, [1, 2])], 1⟩
            : LFUCache).data = none ∧
        ((⟨2, [(1, ⟨1, 1, 1⟩), (2, ⟨2, 2, 1⟩)], [(1, [1, 2])], 1⟩
            : LFUCache).data.length : Int) =
          (⟨2, [(1, ⟨1, 1, 1⟩), (2, ⟨2, 2, 1⟩)], [(1, [1, 2])], 1⟩
            : LFUCache).capacity) ∧
      (∀ k', (alookup k'
          (⟨2, [(1, ⟨1, 1, 1⟩), (2, ⟨2, 2, 1⟩)], [(1, [1, 2])], 1⟩
            : LFUCache).data).isSome = true →
        alookup k'
          (⟨2, [(2, ⟨2, 2, 1⟩), (3, ⟨3, 3, 1⟩)], [(1, [2, 3])], 1⟩
            : LFUCache).data = none →
        victim = some k') :=
  @C10_frame 2
    ⟨2, [(1, ⟨1, 1, 1⟩), (2, ⟨2, 2, 1⟩)], [(1, [1, 2])], 1⟩
    ⟨2, [(2, ⟨2, 2, 1⟩), (3, ⟨3, 3, 1⟩)], [(1, [2, 3])], 1⟩
    (Op.set 3 3)
    (by decide)
    (Reachable.step (Op.set 2 2)
      (Reachable.step (Op.set 1 1) Reachable.init
        (show step (init 2) (Op.set 1 1) =
            some ⟨2, [(1, ⟨1, 1, 1⟩)], [(1, [1])], 1⟩ by decide))
      (show step (⟨2, [(1, ⟨1, 1, 1⟩)], [(1, [1])], 1⟩ : LFUCache)
          (Op.set 2 2) =
          some ⟨2, [(1, ⟨1, 1, 1⟩), (2, ⟨2, 2, 1⟩)], [(1, [1, 2])], 1⟩
        by decide))
    (by decide)

end LFU
